import Mathlib

/-!
Verification of the qualpal color-palette library core against its
natural-language specification.

The C++ sources are shallowly embedded in Lean:

* machine `double` values are modelled as real numbers (`ℝ`) where the code
  computes with transcendental functions, and as rationals (`ℚ`) where the
  code is exact arithmetic (the memory guard, the Halton sequence);
* fallible functions (`throw`) are modelled with `Except`;
* the data-parallel fill of the distance matrix is modelled by its sequential
  semantics (the parallel loop writes disjoint cells).

Definitions follow the source files under `src/` of the repository
(`inst/include/qualpal/*.h`, `src/qualpal/*.{h,cpp}`).  Two definitions that
the repository only declares (their definitions are not part of the source
tree) are modelled from the specification and are marked as such in their
doc comments: the farthest-points selector with the signature of
`farthest_points.h` (the `.cpp` file contains an incompatible legacy
overload), and `simulateCvd` (declared in `cvd.h`).
-/

namespace Qualpal

/-- Error kinds of the library: `std::invalid_argument` (domain errors) and
`std::runtime_error` for the memory guard (resource errors). -/
inductive QErr : Type where
  | domainErr : String → QErr
  | resourceErr : String → QErr
deriving DecidableEq

/-- `detail::estimateMatrixMemory` from `color_difference.h`:
`n * n * sizeof(double)` bytes. -/
def estimateMatrixMemory (n : ℕ) : ℕ := n * n * 8

/-- `detail::checkMatrixSize` from `color_difference.h`: the estimated size in
GiB must not exceed the budget.  The C++ computes
`estimateMatrixMemory(n) / (1024.0 * 1024.0 * 1024.0) <= max_gb` in `double`;
for the sizes admitted by the guard the computation is exact, so it is
modelled over `ℚ`. -/
def checkMatrixSize (n : ℕ) (maxGb : ℚ) : Bool :=
  decide ((estimateMatrixMemory n : ℚ) / (1024 * 1024 * 1024) ≤ maxGb)

/-- The runtime-sized `Matrix<T>` of `matrix.h`, modelled by its dimensions
and its cell-read function `operator()(row, col)` (the column-major storage
layout is invisible through `operator()`). -/
structure QMat (β : Type) where
  nrow : ℕ
  ncol : ℕ
  entry : ℕ → ℕ → β

/-- `colorDifferenceMatrix` (template version, `color_difference.h`): guard
the size, then fill the upper triangle with `metric(colors[i], colors[j])`,
mirror it to the lower triangle and zero the diagonal.  The imperative fill
writes each cell exactly once, so the resulting content is the cell function
given here. -/
def colorDifferenceMatrix {γ β : Type} [Inhabited γ] [Zero β]
    (colors : List γ) (metric : γ → γ → β) (maxMemory : ℚ) :
    Except QErr (QMat β) :=
  let n := colors.length
  if n < 1 then
    .error (.domainErr "At least one color is required to compute a color difference matrix.")
  else if ¬ checkMatrixSize n maxMemory then
    .error (.resourceErr "Color difference matrix would exceed the memory limit.")
  else
    .ok ⟨n, n, fun i j =>
      if i = j then 0
      else if i < j then metric (colors.getD i default) (colors.getD j default)
      else metric (colors.getD j default) (colors.getD i default)⟩

/-! ### Color value types and conversions (`colors.h`, `colors.cpp`)

Color components are `double` triples; they are modelled as `ℝ`.  The
`assert` statements of the constructors are no-ops in release builds and are
modelled as such. -/

namespace colors

/-- sRGB color, components nominally in `[0, 1]`. -/
structure RGB where
  r : ℝ
  g : ℝ
  b : ℝ
deriving Inhabited

/-- CIE XYZ tristimulus values. -/
structure XYZ where
  x : ℝ
  y : ℝ
  z : ℝ
deriving Inhabited

/-- CIE Lab color. -/
structure Lab where
  l : ℝ
  a : ℝ
  b : ℝ
deriving Inhabited

/-- DIN99d color. -/
structure DIN99d where
  l : ℝ
  a : ℝ
  b : ℝ
deriving Inhabited

end colors

/-- `std::clamp(v, lo, hi)`: `v < lo ? lo : (hi < v ? hi : v)`. -/
noncomputable def clampR (v lo hi : ℝ) : ℝ :=
  if v < lo then lo else if hi < v then hi else v

/-- `std::hypot(a, b)`. -/
noncomputable def hypot2 (a b : ℝ) : ℝ := Real.sqrt (a ^ 2 + b ^ 2)

/-- `std::hypot(a, b, c)`. -/
noncomputable def hypot3 (a b c : ℝ) : ℝ := Real.sqrt (a ^ 2 + b ^ 2 + c ^ 2)

/-- `std::cbrt` on the positive reals (every call site guards the argument by
`x > ε > 0`). -/
noncomputable def cbrt (x : ℝ) : ℝ := x ^ ((1 : ℝ) / 3)

/-- `std::log1p`. -/
noncomputable def log1p (x : ℝ) : ℝ := Real.log (1 + x)

/-- `std::atan2(y, x)` (real-number semantics). -/
noncomputable def atan2 (y x : ℝ) : ℝ :=
  if 0 < x then Real.arctan (y / x)
  else if x < 0 then
    (if 0 ≤ y then Real.arctan (y / x) + Real.pi else Real.arctan (y / x) - Real.pi)
  else if 0 < y then Real.pi / 2
  else if y < 0 then -(Real.pi / 2)
  else 0

/-- `metrics::detail::atan2d` from `metrics.h`: `atan2` in degrees, folded
into `[0, 360)`. -/
noncomputable def atan2d (y x : ℝ) : ℝ :=
  let deg := atan2 y x * 180 / Real.pi
  if 0 ≤ deg then deg else deg + 360

/-- `metrics::detail::cosd`. -/
noncomputable def cosd (degrees : ℝ) : ℝ := Real.cos (degrees * Real.pi / 180)

/-- `metrics::detail::sind`. -/
noncomputable def sind (degrees : ℝ) : ℝ := Real.sin (degrees * Real.pi / 180)

/-- The default D65 white point `{ 0.95047, 1, 1.08883 }` of `colors.h`. -/
noncomputable def whiteD65 : ℝ × ℝ × ℝ := (0.95047, 1, 1.08883)

namespace colors

/-- `inverseCompanding` from `colors.cpp`. -/
noncomputable def inverseCompanding (v : ℝ) : ℝ :=
  if v ≤ 0.04045 then v / 12.92 else ((v + 0.055) / 1.055) ^ (2.4 : ℝ)

/-- `XYZ::XYZ(const RGB&)` from `colors.cpp`: inverse sRGB companding per
channel, then the fixed sRGB→XYZ matrix. -/
noncomputable def xyzOfRGB (rgb : RGB) : XYZ :=
  let r := inverseCompanding rgb.r
  let g := inverseCompanding rgb.g
  let b := inverseCompanding rgb.b
  ⟨0.4124564 * r + 0.3575761 * g + 0.1804375 * b,
   0.2126729 * r + 0.7151522 * g + 0.0721750 * b,
   0.0193339 * r + 0.1191920 * g + 0.9503041 * b⟩

/-- `Lab::Lab(const XYZ&, white_point)` from `colors.cpp` (legacy constants
`ε = 0.008856`, `κ = 903.3`; output channels clamped). -/
noncomputable def labOfXYZ (xyz : XYZ) (wp : ℝ × ℝ × ℝ) : Lab :=
  let xr := xyz.x / wp.1
  let yr := xyz.y / wp.2.1
  let zr := xyz.z / wp.2.2
  let fx := if xr > 0.008856 then cbrt xr else (903.3 * xr + 16) / 116
  let fy := if yr > 0.008856 then cbrt yr else (903.3 * yr + 16) / 116
  let fz := if zr > 0.008856 then cbrt zr else (903.3 * zr + 16) / 116
  ⟨clampR (116 * fy - 16) 0 100,
   clampR (500 * (fx - fy)) (-128) 127,
   clampR (200 * (fy - fz)) (-128) 127⟩

/-- `XYZ::XYZ(const Lab&, white_point)` from `colors.cpp` (exact constants
`ε = 216/24389`, `κ = 24389/27`; each output channel floored at 0 by
`std::max(.., 0.0)`). -/
noncomputable def xyzOfLab (lab : Lab) (wp : ℝ × ℝ × ℝ) : XYZ :=
  let epsilon : ℝ := 216 / 24389
  let kappa : ℝ := 24389 / 27
  let fy := (lab.l + 16) / 116
  let fx := lab.a / 500 + fy
  let fz := fy - lab.b / 200
  let xr := if fx ^ 3 > epsilon then fx ^ 3 else (116 * fx - 16) / kappa
  let yr := if lab.l > kappa * epsilon then ((lab.l + 16) / 116) ^ 3
            else lab.l / kappa
  let zr := if fz ^ 3 > epsilon then fz ^ 3 else (116 * fz - 16) / kappa
  ⟨max (xr * wp.1) 0, max (yr * wp.2.1) 0, max (zr * wp.2.2) 0⟩

/-- `DIN99d::DIN99d(const XYZ&, white_point)` from `colors.cpp`: shift the
`x` axis, convert to Lab under the matching adjusted white, then the DIN99d
rotation/compression; output channels clamped. -/
noncomputable def din99dOfXYZ (xyz : XYZ) (wp : ℝ × ℝ × ℝ) : DIN99d :=
  let xPrime := 1.12 * xyz.x - 0.12 * xyz.z
  let xwPrime := 1.12 * wp.1 - 0.12 * wp.2.2
  let lab := labOfXYZ ⟨xPrime, xyz.y, xyz.z⟩ (xwPrime, wp.2.1, wp.2.2)
  let u := 50 * Real.pi / 180
  let e := lab.a * Real.cos u + lab.b * Real.sin u
  let f := 1.14 * (lab.b * Real.cos u - lab.a * Real.sin u)
  let g := hypot2 e f
  let c99d := 22.5 * log1p (0.06 * g)
  let h99d := atan2 f e + 50 * Real.pi / 180
  let l99d := 325.22 * log1p (0.0036 * lab.l)
  ⟨clampR l99d 0 100,
   clampR (c99d * Real.cos h99d) (-128) 127,
   clampR (c99d * Real.sin h99d) (-128) 127⟩

end colors

/-! ### Distance metrics (`metrics.h`)

Each metric functor first converts its arguments to its native space; the
variants below take `XYZ` arguments, matching the runtime-dispatched pool
used by `colorDifferenceMatrix(std::vector<XYZ>, MetricType, double)`. -/

namespace metrics

/-- `metrics::MetricType`. -/
inductive MetricType : Type where
  | DIN99d : MetricType
  | CIE76 : MetricType
  | CIEDE2000 : MetricType
deriving DecidableEq

/-- `metrics::DIN99d::operator()` on already-converted DIN99d coordinates:
Euclidean distance, then the optional power transform. -/
noncomputable def din99dDist (usePowerTransform : Bool) (power scale : ℝ)
    (d1 d2 : colors.DIN99d) : ℝ :=
  let d := hypot3 (d1.l - d2.l) (d1.a - d2.a) (d1.b - d2.b)
  if usePowerTransform then d ^ power * scale else d

/-- `metrics::CIE76::operator()` on already-converted Lab coordinates. -/
noncomputable def cie76Dist (l1 l2 : colors.Lab) : ℝ :=
  hypot3 (l1.l - l2.l) (l1.a - l2.a) (l1.b - l2.b)

/-- `C1 = hypot(x.a, x.b)` of `CIEDE2000::operator()`. -/
noncomputable def chromaOf (c : colors.Lab) : ℝ := hypot2 c.a c.b

/-- The `G` correction of `CIEDE2000::operator()`. -/
noncomputable def gFactor (cHat : ℝ) : ℝ :=
  0.5 * (1 - Real.sqrt (cHat ^ 7 / (cHat ^ 7 + 25 ^ 7)))

/-- `a1_prime = x.a() * (1 + G)` of `CIEDE2000::operator()`. -/
noncomputable def aPrime (g : ℝ) (c : colors.Lab) : ℝ := c.a * (1 + g)

/-- `C1_prime = hypot(a1_prime, x.b())` of `CIEDE2000::operator()`. -/
noncomputable def cPrime (g : ℝ) (c : colors.Lab) : ℝ := hypot2 (aPrime g c) c.b

/-- `h1_prime = atan2d(x.b(), a1_prime)`, plus the (dead, since `atan2d`
already lands in `[0, 360)`) `if (h1_prime < 0) h1_prime += 360` fix-up. -/
noncomputable def hPrime (g : ℝ) (c : colors.Lab) : ℝ :=
  let h := atan2d c.b (aPrime g c)
  if h < 0 then h + 360 else h

/-- The mean hue `H_hat_prime` with its `> 180°` branch correction. -/
noncomputable def hHatPrime (h1 h2 : ℝ) : ℝ :=
  if |h1 - h2| > 180 then (h1 + h2 + 360) / 2 else (h1 + h2) / 2

/-- The `T` trigonometric term of `CIEDE2000::operator()`. -/
noncomputable def tTerm (hHat : ℝ) : ℝ :=
  1 - 0.17 * cosd (hHat - 30) + 0.24 * cosd (2 * hHat) +
    0.32 * cosd (3 * hHat + 6) - 0.20 * cosd (4 * hHat - 63)

/-- `delta_h_prime` with its `> 180°` branch correction. -/
noncomputable def deltaLittleH (h1 h2 : ℝ) : ℝ :=
  let d := h2 - h1
  if |d| > 180 then (if h2 ≤ h1 then d + 360 else d - 360) else d

/-- The tail of `CIEDE2000::operator()` after the per-color primed
quantities have been computed: the deltas, the weighting functions
`S_L, S_C, S_H`, the rotation term, and the final square root. -/
noncomputable def ciedeTail (kl kc kh lum1 c1p h1p lum2 c2p h2p : ℝ) : ℝ :=
  let lHat := (lum1 + lum2) / 2
  let cHatP := (c1p + c2p) / 2
  let hHatP := hHatPrime h1p h2p
  let t := tTerm hHatP
  let dh := deltaLittleH h1p h2p
  let dL := lum2 - lum1
  let dC := c2p - c1p
  let dH := 2 * Real.sqrt (c1p * c2p) * sind (dh / 2)
  let sl := 1 + (0.015 * (lHat - 50) ^ 2) / Real.sqrt (20 + (lHat - 50) ^ 2)
  let sc := 1 + 0.045 * cHatP
  let sh := 1 + 0.015 * cHatP * t
  let dTheta := 30 * Real.exp (-(((hHatP - 275) / 25) ^ 2))
  let rc := 2 * Real.sqrt (cHatP ^ 7 / (cHatP ^ 7 + 25 ^ 7))
  let rt := -rc * sind (2 * dTheta)
  Real.sqrt ((dL / (kl * sl)) ^ 2 + (dC / (kc * sc)) ^ 2 + (dH / (kh * sh)) ^ 2 +
    rt * (dC / (kc * sc)) * (dH / (kh * sh)))

/-- `metrics::CIEDE2000::operator()` on already-converted Lab coordinates,
with weighting factors `K_L, K_C, K_H`. -/
noncomputable def ciede2000Dist (kl kc kh : ℝ) (x y : colors.Lab) : ℝ :=
  let cHat := (chromaOf x + chromaOf y) / 2
  let g := gFactor cHat
  ciedeTail kl kc kh x.l (cPrime g x) (hPrime g x) y.l (cPrime g y) (hPrime g y)

/-- The DIN99d metric on `XYZ` inputs with default parameters
(`use_power_transform = true`, `power = 0.74`, `scale = 1.28`), converting
through `colors::DIN99d` under the default white point. -/
noncomputable def din99dXYZ (c1 c2 : colors.XYZ) : ℝ :=
  din99dDist true 0.74 1.28 (colors.din99dOfXYZ c1 whiteD65)
    (colors.din99dOfXYZ c2 whiteD65)

/-- The CIE76 metric on `XYZ` inputs, converting through `colors::Lab`. -/
noncomputable def cie76XYZ (c1 c2 : colors.XYZ) : ℝ :=
  cie76Dist (colors.labOfXYZ c1 whiteD65) (colors.labOfXYZ c2 whiteD65)

/-- The CIEDE2000 metric on `XYZ` inputs with the default weighting factors
`K_L = K_C = K_H = 1`, converting through `colors::Lab`. -/
noncomputable def ciede2000XYZ (c1 c2 : colors.XYZ) : ℝ :=
  ciede2000Dist 1 1 1 (colors.labOfXYZ c1 whiteD65) (colors.labOfXYZ c2 whiteD65)

end metrics

/-- `colorDifferenceMatrix(std::vector<XYZ>, MetricType, double)` from
`color_difference.cpp`: convert the pool to the metric's native space once,
then run the generic pairwise fill.  Converting before the fill yields the
same matrix as passing the composed metric to the fill, which is how it is
written here. -/
noncomputable def colorDifferenceMatrixRT (cols : List colors.XYZ)
    (metricType : metrics.MetricType) (maxMemory : ℚ) : Except QErr (QMat ℝ) :=
  match metricType with
  | .DIN99d => colorDifferenceMatrix cols metrics.din99dXYZ maxMemory
  | .CIE76 => colorDifferenceMatrix cols metrics.cie76XYZ maxMemory
  | .CIEDE2000 => colorDifferenceMatrix cols metrics.ciede2000XYZ maxMemory

/-! ### The farthest-points selector core (`farthest_points.cpp`, lines 37-126)

The local-search sweep of `farthestPoints` only reads the entries of the
precomputed distance matrix, so the core is generic over a linearly ordered
value type; the library instantiates it with the `double`-valued (here:
real-valued) matrix.  `std::numeric_limits<double>::max()`, the start value
of every running minimum, is modelled by `⊤` of `WithTop α`.

State layout (mirroring the C++ locals): `r` is the currently selected index
list of length `n`; `rc` is the complement vector, of which only the first
`n_colors - n` entries are ever read or written.  Anchor positions
(`i < n_fixed`) are never touched; `n_colors` is the number of anchor plus
candidate colors, and index `n_colors` itself denotes the background when
`hasBg` is set. -/

/-- The selected/complement index vectors `r` and `r_c`. -/
structure SelState where
  r : List ℕ
  rc : List ℕ
deriving DecidableEq

section SelectorCore

variable {α : Type} [LinearOrder α]

/-- A running minimum over a list of distance values, started (as in the
C++) at `DBL_MAX`, modelled by `⊤`. -/
def listMin (l : List α) : WithTop α :=
  l.foldl (fun (acc : WithTop α) (x : α) => min acc ↑x) ⊤

/-- The distance values inspected when scoring value `v` in slot `i`: the
distances `D(r[j], v)` to the other selected entries (`j ≠ i`), then
`D(v, n_colors)` to the background when present
(`farthest_points.cpp`, lines 57-65 and 72-84). -/
def slotValues (D : ℕ → ℕ → α) (hasBg : Bool) (nColors n : ℕ)
    (r : List ℕ) (i v : ℕ) : List α :=
  ((List.range n).filter (fun j => j ≠ i)).map (fun j => D (r.getD j 0) v) ++
    (if hasBg then [D v nColors] else [])

/-- The minimum distance from value `v` (sitting in slot `i`) to the rest of
the selection, extended with the background. -/
def slotMinDist (D : ℕ → ℕ → α) (hasBg : Bool) (nColors n : ℕ)
    (r : List ℕ) (i v : ℕ) : WithTop α :=
  listMin (slotValues D hasBg nColors n r i v)

/-- The scan over the complement pool (`farthest_points.cpp`, lines 69-92):
`k` ranges over `[0, n_colors - n)`, the running best starts at the current
slot's own score, and a candidate replaces it only on a strict improvement
(so on ties the first-found candidate wins).  Returns
`(best, ind_new, found_better)`. -/
def scanPool (D : ℕ → ℕ → α) (hasBg : Bool) (nColors n : ℕ)
    (r rc : List ℕ) (i : ℕ) (dOld : WithTop α) : WithTop α × ℕ × Bool :=
  (List.range (nColors - n)).foldl
    (fun acc k =>
      let dk := slotMinDist D hasBg nColors n r i (rc.getD k 0)
      if acc.1 < dk then (dk, k, true) else acc)
    (dOld, i, false)

/-- One iteration of the `for (i = n_fixed; i < n; ++i)` body
(`farthest_points.cpp`, lines 50-98): score the current occupant of slot
`i`, scan the pool, and swap `r[i]` with the best strictly better pool entry
if one was found. -/
def stepSlot (D : ℕ → ℕ → α) (hasBg : Bool) (nColors n : ℕ)
    (s : SelState) (i : ℕ) : SelState :=
  let old := s.r.getD i 0
  let dOld := slotMinDist D hasBg nColors n s.r i old
  let res := scanPool D hasBg nColors n s.r s.rc i dOld
  if res.2.2 then ⟨s.r.set i (s.rc.getD res.2.1 0), s.rc.set res.2.1 old⟩ else s

/-- One full sweep over the non-anchor slots `n_fixed ≤ i < n`. -/
def sweepOnce (D : ℕ → ℕ → α) (hasBg : Bool) (nColors n nFixed : ℕ)
    (s : SelState) : SelState :=
  (List.range' nFixed (n - nFixed)).foldl (stepSlot D hasBg nColors n) s

/-- The initial state (`farthest_points.cpp`, lines 38-44): `r = 0..n-1`,
`r_c = n, n+1, …` (only the first `n_colors - n` entries of `r_c` are ever
used). -/
def initState (n nCandidates : ℕ) : SelState :=
  ⟨List.range n, (List.range nCandidates).map (n + ·)⟩

/-- The `while (set_changed)` loop, as a bounded iteration of full sweeps.
The C++ loop stops at the first sweep that performs no swap; a sweep without
swaps leaves the state unchanged, so iterating `sweepOnce` any number of
times past that point reproduces the loop's result.  The fuel
`(n_colors + n) ^ n` is sufficient: along changed sweeps the selection
multiset strictly increases in a well-founded sense, so no selection
repeats, and there are fewer selection vectors than the fuel (see the
termination theorem below). -/
def runSweeps (D : ℕ → ℕ → α) (hasBg : Bool) (nColors n nFixed : ℕ)
    (s : SelState) : SelState :=
  (sweepOnce D hasBg nColors n nFixed)^[(nColors + n) ^ n] s

/-- The key of the final ordering pass (`farthest_points.cpp`, lines
109-126): the minimum distance from selection member `a` to the other
non-anchor selection members.  The C++ comparator reads the vector being
sorted, whose intermediate contents during `std::sort` are unspecified; the
keys are modelled against the pre-sort contents, which is the only reading
under which the comparator is a consistent ordering. -/
def sortKey (D : ℕ → ℕ → α) (nFixed : ℕ) (r : List ℕ) (a : ℕ) : WithTop α :=
  listMin (((r.drop nFixed).filter (fun v => v ≠ a)).map (fun v => D v a))

/-- The final ordering pass: sort the non-anchor suffix of `r` in descending
order of `sortKey`; anchors stay in place. -/
def sortSuffix (D : ℕ → ℕ → α) (nFixed : ℕ) (r : List ℕ) : List ℕ :=
  r.take nFixed ++
    (r.drop nFixed).mergeSort
      (fun a b => decide (sortKey D nFixed r b ≤ sortKey D nFixed r a))

end SelectorCore

/-- Modelled from the spec: the farthest-points selector with the signature
declared in `farthest_points.h` and documented in the specification
(§4.6).  Its definition is absent from the source tree: `farthest_points.h`
declares it and `Qualpal::selectColors` calls it, but `farthest_points.cpp`
contains only an incompatible legacy overload (different parameter and
return conventions) that no code calls.  The algorithm below follows the
specification steps 1-6, whose sweep/swap/sort bodies coincide with the
legacy overload's loops (`farthest_points.cpp`, lines 37-126), embedded
above as the selector core.  Layout: `colors = anchors ++ candidates ++
optional background`; the returned list contains `n` indices into that
layout, the anchors first.  The `n - n_fixed` comparison is a `size_t`
subtraction in C++, which for `n < n_fixed` wraps to a huge value and lands
in the error branch; the first disjunct models that. -/
noncomputable def farthestPoints (n : ℕ) (cols : List colors.XYZ)
    (metricType : metrics.MetricType) (hasBg : Bool) (nFixed : ℕ)
    (maxMemory : ℚ) : Except QErr (List ℕ) :=
  match colorDifferenceMatrixRT cols metricType maxMemory with
  | .error e => .error e
  | .ok M =>
    let nColors := cols.length - (if hasBg then 1 else 0)
    let nCandidates := nColors - nFixed
    if n < nFixed ∨ n - nFixed > nCandidates then
      .error (.domainErr "Requested number of new colors exceeds candidate pool.")
    else
      let D := M.entry
      let s := runSweeps D hasBg nColors n nFixed (initState n nCandidates)
      .ok (sortSuffix D nFixed s.r)

/-! ### CVD simulation and the pipeline orchestrator (`qualpal.cpp`) -/

/-- Forward sRGB companding, as used by `RGB::RGB(const XYZ&)`
(`colors.cpp`, lines 133-139). -/
noncomputable def forwardCompanding (v : ℝ) : ℝ :=
  if v > 0.0031308 then 1.055 * v ^ ((1 : ℝ) / 2.4) - 0.055 else 12.92 * v

/-- A 3×3 matrix of reals given by rows. -/
def Mat3 : Type := (ℝ × ℝ × ℝ) × (ℝ × ℝ × ℝ) × (ℝ × ℝ × ℝ)

/-- Matrix–vector product for `Mat3`. -/
noncomputable def mat3Apply (m : Mat3) (v : ℝ × ℝ × ℝ) : ℝ × ℝ × ℝ :=
  (m.1.1 * v.1 + m.1.2.1 * v.2.1 + m.1.2.2 * v.2.2,
   m.2.1.1 * v.1 + m.2.1.2.1 * v.2.1 + m.2.1.2.2 * v.2.2,
   m.2.2.1 * v.1 + m.2.2.2.1 * v.2.1 + m.2.2.2.2 * v.2.2)

/-- The identity `Mat3`. -/
noncomputable def mat3Id : Mat3 := ((1, 0, 0), (0, 1, 0), (0, 0, 1))

/-- Machado et al. (2009) full-severity protanomaly matrix. -/
noncomputable def machadoProtan : Mat3 :=
  ((0.152286, 1.052583, -0.204868),
   (0.114503, 0.786281, 0.099216),
   (-0.003882, -0.048116, 1.051998))

/-- Machado et al. (2009) full-severity deuteranomaly matrix. -/
noncomputable def machadoDeutan : Mat3 :=
  ((0.367322, 0.860646, -0.227968),
   (0.280085, 0.672501, 0.047413),
   (-0.011820, 0.042940, 0.968881))

/-- Machado et al. (2009) full-severity tritanomaly matrix. -/
noncomputable def machadoTritan : Mat3 :=
  ((1.255528, -0.076749, -0.178779),
   (-0.078411, 0.930809, 0.147602),
   (0.004733, 0.691367, 0.303900))

/-- Modelled from the spec: `simulateCvd`, declared in `cvd.h` but defined
nowhere in the source tree.  Per specification §4.3: inverse-compand to
linear sRGB, apply a severity-interpolated deficiency matrix (severity 0 is
the identity, severity 1 the full published Machado matrix; the
specification leaves the interior interpolation table implementation
defined, so a linear interpolation between those two endpoints is used),
re-compand and clamp to `[0, 1]`.  An unrecognized type string (rejected
earlier by `setCvd`) is modelled as the identity.  No theorem below depends
on the numeric content of this function. -/
noncomputable def simulateCvd (cvdType : String) (severity : ℝ)
    (rgb : colors.RGB) : colors.RGB :=
  let m1 :=
    if cvdType = "protan" then machadoProtan
    else if cvdType = "deutan" then machadoDeutan
    else if cvdType = "tritan" then machadoTritan
    else mat3Id
  let lin := (colors.inverseCompanding rgb.r, colors.inverseCompanding rgb.g,
    colors.inverseCompanding rgb.b)
  let mixed := mat3Apply m1 lin
  let out := ((1 - severity) * lin.1 + severity * mixed.1,
    (1 - severity) * lin.2.1 + severity * mixed.2.1,
    (1 - severity) * lin.2.2 + severity * mixed.2.2)
  ⟨clampR (forwardCompanding out.1) 0 1,
   clampR (forwardCompanding out.2.1) 0 1,
   clampR (forwardCompanding out.2.2) 0 1⟩

/-- `Qualpal::selectColors` (`qualpal.cpp`, lines 140-241), for an already
materialized candidate pool (`Mode::RGB`; the other input modes differ only
in how `rgb_colors_in` is materialized before this code runs).  Validation,
assembly of `rgb_colors = fixed ++ pool ++ bg`, CVD simulation of a working
copy, conversion to XYZ, the selector call, and the output map back into
the *original* (pre-CVD) colors.  The C++ `cvd` member is a
`std::map` iterated in key order; it is modelled as an association list in
iteration order.  (The "No input colors provided" throw is a
`std::runtime_error` in C++; it is a configuration fault, modelled as a
domain error.) -/
noncomputable def selectColors (pool : List colors.RGB)
    (bg : Option colors.RGB) (cvd : List (String × ℝ))
    (metricType : metrics.MetricType) (maxMemory : ℚ) (n : ℕ)
    (fixedPalette : List colors.RGB) : Except QErr (List colors.RGB) :=
  if pool.isEmpty then .error (.domainErr "No input colors provided.")
  else
    let nFixed := fixedPalette.length
    if n < nFixed then
      .error (.domainErr "Requested palette size is less than the size of the existing palette.")
    else if pool.length < n - nFixed then
      .error (.domainErr "Requested number of colors exceeds input size")
    else
      let rgbColors := fixedPalette ++ pool ++ bg.toList
      let rgbMod := cvd.foldl
        (fun acc p => if p.2 > 0 then acc.map (simulateCvd p.1 p.2) else acc)
        rgbColors
      let xyz := rgbMod.map colors.xyzOfRGB
      match farthestPoints n xyz metricType bg.isSome nFixed maxMemory with
      | .error e => .error e
      | .ok ind => .ok (ind.map fun i => rgbColors.getD i default)

/-! ### Palette analysis (`analyze.cpp`) -/

/-- A `double` value: either an ordinary (finite) value or a NaN.  Only the
palette-analysis code is sensitive to the distinction (its documented
`bg_min_distance` NaN), so only its embedding uses this type. -/
inductive Fp (α : Type) : Type where
  | nan : Fp α
  | fin : α → Fp α
deriving DecidableEq

/-- IEEE `operator<` on `Fp`: comparisons against NaN are false. -/
def fpLt {α : Type} [LinearOrder α] : Fp α → Fp α → Bool
  | .fin x, .fin y => decide (x < y)
  | _, _ => false

/-- `std::min(a, b) = (b < a) ? b : a` under IEEE comparison semantics. -/
def fpStdMin {α : Type} [LinearOrder α] (a b : Fp α) : Fp α :=
  if fpLt b a then b else a

/-- The exact value of `std::numeric_limits<double>::max()`,
`(2^53 - 1) · 2^971`. -/
noncomputable def dblMax : ℝ := (2 ^ 53 - 1) * 2 ^ 971

/-- The `min_distances` loop of `analyzePalette` (`analyze.cpp`, lines
44-55): for each row `i` of the difference matrix, fold `std::min` over the
entries `(i, j)` with `j ≠ i`, starting from
`std::numeric_limits<double>::max()`. -/
def minDistances {α : Type} [LinearOrder α] (dmax : α) (nrow ncol : ℕ)
    (M : ℕ → ℕ → Fp α) : List (Fp α) :=
  (List.range nrow).map fun i =>
    (List.range ncol).foldl
      (fun acc j => if i ≠ j then fpStdMin acc (M i j) else acc)
      (.fin dmax)

/-! ### Hex-color validation (`validation.cpp`, `qualpal.cpp`) -/

/-- A hexadecimal digit, the character class `[A-Fa-f0-9]`. -/
def isHexDigit (c : Char) : Bool :=
  (decide (('0' : Char) ≤ c) && decide (c ≤ ('9' : Char))) ||
  (decide (('A' : Char) ≤ c) && decide (c ≤ ('F' : Char))) ||
  (decide (('a' : Char) ≤ c) && decide (c ≤ ('f' : Char)))

/-- `isValidHexColor` (`validation.cpp`, lines 7-12): whether the string
matches `^#([A-Fa-f0-9]{6}|[A-Fa-f0-9]{3})$`, written out as the language
of that expression. -/
def isValidHexColor (s : String) : Bool :=
  match s.data with
  | [] => false
  | c :: rest =>
    c = '#' && (rest.length = 6 || rest.length = 3) && rest.all isHexDigit

/-- The language of the specification's pattern
`^#([0-9a-fA-F]{3}|[0-9a-fA-F]{6})$` (claim side; the alternation order is
swapped relative to the code's pattern). -/
def specHexMatch (s : String) : Bool :=
  match s.data with
  | [] => false
  | c :: rest =>
    c = '#' && (rest.length = 3 || rest.length = 6) && rest.all isHexDigit

/-- `Qualpal::setInputHex` (`qualpal.cpp`, lines 22-34): throw a domain
error at the first invalid hex string, otherwise accept the list. -/
def setInputHex (hexColors : List String) : Except QErr (List String) :=
  match hexColors.find? (fun c => ! isValidHexColor c) with
  | some c => .error (.domainErr ("Invalid hex color: " ++ c ++ ". Expected format: #RRGGBB or #RGB"))
  | none => .ok hexColors

/-! ### The Halton color grid (`color_grid.h`)

The Halton recurrence divides exactly by the prime bases; it is embedded
over `ℚ` (its `double` evaluation differs only by rounding that none of the
stated bounds are sensitive to). -/

/-- The `while (i > 0)` loop of `Halton::halton` (`color_grid.h`, lines
36-43), with an explicit fuel that is exhausted only after the loop would
have stopped (for the bases ≥ 2 in use, the loop runs at most `index`
times).  State: `(i, f, result)`. -/
def haltonLoop (base : ℕ) : ℕ → ℕ → ℚ → ℚ → ℚ
  | 0, _, _, acc => acc
  | fuel + 1, i, f, acc =>
    if i = 0 then acc
    else haltonLoop base fuel (i / base) (f / base) (acc + f / base * ((i % base : ℕ) : ℚ))

/-- `Halton::halton(index, base)` from `color_grid.h`: the radical-inverse
of `index` in the given base. -/
def halton (index base : ℕ) : ℚ := haltonLoop base index index 1 0

/-- `std::clamp` over `ℚ`. -/
def clampQ (v lo hi : ℚ) : ℚ := if v < lo then lo else if hi < v then hi else v

/-- `scaleToInterval` (`color_grid.h`, lines 53-59): affinely scale
`x ∈ [0, 1]` onto `[min, max]` and clamp. -/
def scaleToInterval (x lo hi : ℚ) : ℚ := clampQ ((hi - lo) * (x - 1) + hi) lo hi

/-- The `colorGrid<colors::HSL>` specialization (`color_grid.h`, lines
84-102).  The `Halton<3>` counter starts at 0 and is incremented after each
draw, so point `i` uses Halton index `i` with bases `(2, 3, 5)`.  Emitted
triples are `(hue, saturation, lightness)`, with negative hues wrapped by
`+360`; the `colors::HSL` constructor only asserts its ranges. -/
def colorGridHSL (hLim sLim lLim : ℚ × ℚ) (nPoints : ℕ) :
    List (ℚ × ℚ × ℚ) :=
  (List.range nPoints).map fun i =>
    let h := scaleToInterval (halton i 2) hLim.1 hLim.2
    let s := scaleToInterval (halton i 3) sLim.1 sLim.2
    let l := scaleToInterval (halton i 5) lLim.1 lLim.2
    (if h < 0 then h + 360 else h, s, l)

/-- The HSL branch of `Qualpal::setInputColorspace` (`qualpal.cpp`, lines
50-66): the range checks that the builder applies before accepting an HSL
colorspace request. -/
def validHslColorspace (hLim sLim lLim : ℚ × ℚ) : Bool :=
  !(decide (hLim.1 < -360) || decide (hLim.2 > 360)) &&
  !(decide (hLim.2 - hLim.1 > 360)) &&
  !(decide (sLim.1 < 0) || decide (sLim.2 > 1)) &&
  !(decide (lLim.1 < 0) || decide (lLim.2 > 1))

/-! ### Verification infrastructure for the selector

The potential `phi` tracks, for a selection vector `r`, the multiset of all
ordered-pair distances among the *targets*: the selected indices plus the
background index when present.  Every accepted swap strictly decreases the
number of copies of the smallest changed distance value, which is captured
by the well-founded relation `MLt` below; this drives the termination
argument for the sweep loop. -/

section SelectorInfra

variable {α : Type} [LinearOrder α]

/-- The selected indices extended with the background index. -/
def targetsOf (hasBg : Bool) (nColors : ℕ) (r : List ℕ) : List ℕ :=
  r ++ (if hasBg then [nColors] else [])

/-- All ordered pairs of distinct positions below `m`. -/
def pairList (m : ℕ) : List (ℕ × ℕ) :=
  (List.range m ×ˢ List.range m).filter fun p => p.1 ≠ p.2

/-- The multiset of pairwise distances among the targets of `r`. -/
def phi (D : ℕ → ℕ → α) (hasBg : Bool) (nColors : ℕ) (r : List ℕ) :
    Multiset α :=
  ↑((pairList (targetsOf hasBg nColors r).length).map fun p =>
      D ((targetsOf hasBg nColors r).getD p.1 0)
        ((targetsOf hasBg nColors r).getD p.2 0))

/-- `M2` improves on `M1`: strictly fewer copies of some value `a`, and no
change below `a`.  (Ascending-lexicographic strict increase on sorted
multisets.) -/
def MLt [DecidableEq α] (M1 M2 : Multiset α) : Prop :=
  ∃ a, M2.count a < M1.count a ∧ ∀ x, x < a → M1.count x = M2.count x

/-- The selector-state invariant: `r` has length `n`, the anchor positions
hold `0 … n_fixed - 1`, the non-anchor positions hold indices in the
candidate range `[n_fixed, n_colors)`, the used pool entries do too, and
the pool vector is long enough for its used prefix. -/
def SelInv (nColors n nFixed : ℕ) (s : SelState) : Prop :=
  s.r.length = n ∧
  nColors - n ≤ s.rc.length ∧
  (∀ j, j < nFixed → s.r.getD j 0 = j) ∧
  (∀ j, nFixed ≤ j → j < n → nFixed ≤ s.r.getD j 0 ∧ s.r.getD j 0 < nColors) ∧
  (∀ k, k < nColors - n → nFixed ≤ s.rc.getD k 0 ∧ s.rc.getD k 0 < nColors)

end SelectorInfra

/-! ## Theorems -/

/-! ### The distance matrix: shape, symmetry, and the memory guard -/

theorem colorDifferenceMatrix_ok {γ β : Type} [Inhabited γ] [Zero β]
    (colors : List γ) (metric : γ → γ → β) (maxMemory : ℚ)
    (hne : colors ≠ []) (hchk : checkMatrixSize colors.length maxMemory = true) :
    colorDifferenceMatrix colors metric maxMemory =
      .ok ⟨colors.length, colors.length, fun i j =>
        if i = j then 0
        else if i < j then metric (colors.getD i default) (colors.getD j default)
        else metric (colors.getD j default) (colors.getD i default)⟩ := by
  have hlen : ¬ colors.length < 1 := by
    simpa [Nat.lt_one_iff, List.length_eq_zero] using hne
  simp [colorDifferenceMatrix, hlen, hchk]

theorem checkMatrixSize_iff (n : ℕ) (maxGb : ℚ) :
    checkMatrixSize n maxGb = true ↔
      (estimateMatrixMemory n : ℚ) ≤ maxGb * 2 ^ 30 := by
  have h30 : ((1024 : ℚ) * 1024 * 1024) = 2 ^ 30 := by norm_num
  rw [checkMatrixSize, decide_eq_true_eq, div_le_iff₀ (by norm_num), h30]

theorem checkMatrixSize_two_one : checkMatrixSize 2 1 = true := by
  rw [checkMatrixSize_iff]
  norm_num [estimateMatrixMemory]

theorem checkMatrixSize_three_one : checkMatrixSize 3 1 = true := by
  rw [checkMatrixSize_iff]
  norm_num [estimateMatrixMemory]

theorem checkMatrixSize_four_one : checkMatrixSize 4 1 = true := by
  rw [checkMatrixSize_iff]
  norm_num [estimateMatrixMemory]

theorem estimateMatrixMemory_two_over_budget :
    (0 : ℚ) * 2 ^ 30 < (estimateMatrixMemory [(0 : ℚ), 3].length : ℚ) := by
  norm_num [estimateMatrixMemory]

/-- Claim C4: for every non-empty color list and every metric, the matrix
returned by `colorDifferenceMatrix` is square of size `N × N`, symmetric,
and has a zero diagonal. -/
theorem claim_C4_matrix_shape {γ β : Type} [Inhabited γ] [Zero β]
    (colors : List γ) (metric : γ → γ → β) (maxMemory : ℚ) (M : QMat β)
    (hne : colors ≠ [])
    (hok : colorDifferenceMatrix colors metric maxMemory = .ok M) :
    M.nrow = colors.length ∧ M.ncol = colors.length ∧
      (∀ i j, M.entry i j = M.entry j i) ∧ ∀ i, M.entry i i = 0 := by
  have hlen : ¬ colors.length < 1 := by
    simpa [Nat.lt_one_iff, List.length_eq_zero] using hne
  rw [colorDifferenceMatrix] at hok
  simp only [hlen, if_false] at hok
  by_cases hchk : checkMatrixSize colors.length maxMemory
  · simp only [hchk, not_true, if_false, if_true, Except.ok.injEq] at hok
    subst hok
    refine ⟨rfl, rfl, fun i j => ?_, fun i => by simp⟩
    rcases lt_trichotomy i j with h | h | h
    · simp [h.ne, h.ne.symm, h, not_lt.mpr h.le]
    · simp [h]
    · simp [h.ne, h.ne.symm, h, not_lt.mpr h.le]
  · simp [hchk] at hok

/-- Witness for C4 at a concrete input. -/
theorem claim_C4_matrix_shape_witness :
    ([ (0 : ℚ), 3 ] ≠ [] ∧
      colorDifferenceMatrix [(0 : ℚ), 3] (fun a b => |a - b|) 1 =
        .ok ⟨2, 2, fun i j =>
          if i = j then 0
          else if i < j then |[(0 : ℚ), 3].getD i default - [(0 : ℚ), 3].getD j default|
          else |[(0 : ℚ), 3].getD j default - [(0 : ℚ), 3].getD i default|⟩) ∧
      ((⟨2, 2, fun i j =>
          if i = j then 0
          else if i < j then |[(0 : ℚ), 3].getD i default - [(0 : ℚ), 3].getD j default|
          else |[(0 : ℚ), 3].getD j default - [(0 : ℚ), 3].getD i default|⟩ : QMat ℚ).nrow =
          [(0 : ℚ), 3].length ∧
        (⟨2, 2, fun i j =>
          if i = j then 0
          else if i < j then |[(0 : ℚ), 3].getD i default - [(0 : ℚ), 3].getD j default|
          else |[(0 : ℚ), 3].getD j default - [(0 : ℚ), 3].getD i default|⟩ : QMat ℚ).ncol =
          [(0 : ℚ), 3].length ∧
        (∀ i j : ℕ,
          (⟨2, 2, fun i j =>
            if i = j then 0
            else if i < j then |[(0 : ℚ), 3].getD i default - [(0 : ℚ), 3].getD j default|
            else |[(0 : ℚ), 3].getD j default - [(0 : ℚ), 3].getD i default|⟩ : QMat ℚ).entry i j =
          (⟨2, 2, fun i j =>
            if i = j then 0
            else if i < j then |[(0 : ℚ), 3].getD i default - [(0 : ℚ), 3].getD j default|
            else |[(0 : ℚ), 3].getD j default - [(0 : ℚ), 3].getD i default|⟩ : QMat ℚ).entry j i) ∧
        ∀ i : ℕ,
          (⟨2, 2, fun i j =>
            if i = j then 0
            else if i < j then |[(0 : ℚ), 3].getD i default - [(0 : ℚ), 3].getD j default|
            else |[(0 : ℚ), 3].getD j default - [(0 : ℚ), 3].getD i default|⟩ : QMat ℚ).entry i i = 0) := by
  have h1 : ([ (0 : ℚ), 3 ] : List ℚ) ≠ [] := by simp
  have h2 := colorDifferenceMatrix_ok [(0 : ℚ), 3] (fun a b => |a - b|) 1 h1
    checkMatrixSize_two_one
  exact ⟨⟨h1, h2⟩, claim_C4_matrix_shape [(0 : ℚ), 3] (fun a b => |a - b|) 1 _ h1 h2⟩

/-- Claim C5: `colorDifferenceMatrix` fails with a resource error exactly
when `N² · 8` bytes exceed `max_memory_gb · 2³⁰` (for `N ≥ 1`; an empty
input takes the invalid-argument branch before the guard), an input within
the budget succeeds, and the failure is decided by the guard alone, before
the matrix value is formed. -/
theorem claim_C5_memory_guard {γ β : Type} [Inhabited γ] [Zero β]
    (colors : List γ) (metric : γ → γ → β) (maxMemory : ℚ)
    (hne : 1 ≤ colors.length) :
    ((∃ msg, colorDifferenceMatrix colors metric maxMemory =
        .error (.resourceErr msg)) ↔
      maxMemory * 2 ^ 30 < (estimateMatrixMemory colors.length : ℚ)) ∧
      ((estimateMatrixMemory colors.length : ℚ) ≤ maxMemory * 2 ^ 30 →
        ∃ M, colorDifferenceMatrix colors metric maxMemory = .ok M) := by
  have hlen : ¬ colors.length < 1 := not_lt.mpr hne
  constructor
  · constructor
    · rintro ⟨msg, hmsg⟩
      rw [colorDifferenceMatrix] at hmsg
      simp only [hlen, if_false] at hmsg
      by_cases hchk : checkMatrixSize colors.length maxMemory
      · simp [hchk] at hmsg
      · by_contra hle
        exact hchk ((checkMatrixSize_iff _ _).mpr (not_lt.mp hle))
    · intro hgt
      have hchk : ¬ checkMatrixSize colors.length maxMemory = true := by
        rw [checkMatrixSize_iff]
        exact not_le.mpr hgt
      refine ⟨"Color difference matrix would exceed the memory limit.", ?_⟩
      rw [colorDifferenceMatrix]
      simp [hlen, hchk]
  · intro hle
    have hchk : checkMatrixSize colors.length maxMemory = true :=
      (checkMatrixSize_iff _ _).mpr hle
    have hne : colors ≠ [] := by
      rw [← List.length_pos] at *
      omega
    exact ⟨_, colorDifferenceMatrix_ok colors metric maxMemory hne hchk⟩

/-- Witness for C5 at a concrete input: both directions of the guard. -/
theorem claim_C5_memory_guard_witness :
    (1 ≤ [(0 : ℚ), 3].length ∧
      (((∃ msg, colorDifferenceMatrix [(0 : ℚ), 3] (fun a b => |a - b|) 1 =
          .error (.resourceErr msg)) ↔
        (1 : ℚ) * 2 ^ 30 < (estimateMatrixMemory 2 : ℚ)) ∧
        ((estimateMatrixMemory 2 : ℚ) ≤ (1 : ℚ) * 2 ^ 30 →
          ∃ M, colorDifferenceMatrix [(0 : ℚ), 3] (fun a b => |a - b|) 1 = .ok M))) ∧
      ∃ msg, colorDifferenceMatrix [(0 : ℚ), 3] (fun a b => |a - b|) 0 =
        .error (.resourceErr msg) := by
  refine ⟨⟨by simp, claim_C5_memory_guard [(0 : ℚ), 3] (fun a b => |a - b|) 1 (by simp)⟩, ?_⟩
  exact ((claim_C5_memory_guard [(0 : ℚ), 3] (fun a b => |a - b|) 0 (by simp)).1).mpr
    estimateMatrixMemory_two_over_budget

/-! ### Hex validation (C9) -/

theorem specHexMatch_eq_isValidHexColor (s : String) :
    specHexMatch s = isValidHexColor s := by
  rw [specHexMatch, isValidHexColor]
  cases s.data with
  | nil => rfl
  | cons c rest => simp [Bool.or_comm]

/-- Claim C9: every hex string that does not match
`^#([0-9a-fA-F]{3}|[0-9a-fA-F]{6})$` makes the hex input path
(`Qualpal::setInputHex`) fail with a domain error. -/
theorem claim_C9_invalid_hex_rejected (hexColors : List String) (s : String)
    (hmem : s ∈ hexColors) (hbad : specHexMatch s = false) :
    ∃ msg, setInputHex hexColors = .error (.domainErr msg) := by
  have hbad2 : isValidHexColor s = false := by
    rw [← specHexMatch_eq_isValidHexColor]
    exact hbad
  have hsome : (hexColors.find? fun c => ! isValidHexColor c).isSome := by
    rw [List.find?_isSome]
    exact ⟨s, hmem, by simp [hbad2]⟩
  obtain ⟨c, hc⟩ := Option.isSome_iff_exists.mp hsome
  exact ⟨_, by rw [setInputHex, hc]⟩

/-- Witness for C9: `"#gg0000"` is rejected. -/
theorem claim_C9_invalid_hex_rejected_witness :
    ("#gg0000" ∈ ["#gg0000"] ∧ specHexMatch "#gg0000" = false) ∧
      ∃ msg, setInputHex ["#gg0000"] = .error (.domainErr msg) := by
  refine ⟨⟨by simp, by decide⟩, ?_⟩
  exact claim_C9_invalid_hex_rejected ["#gg0000"] "#gg0000" (by simp) (by decide)

/-! ### The Halton color grid (C10) -/

theorem haltonLoop_bound (base : ℕ) (hb : 2 ≤ base) :
    ∀ (fuel i : ℕ) (f acc : ℚ), 0 < f →
      acc ≤ haltonLoop base fuel i f acc ∧ haltonLoop base fuel i f acc < acc + f := by
  intro fuel
  induction fuel with
  | zero =>
    intro i f acc hf
    exact ⟨le_refl acc, by simpa [haltonLoop] using lt_add_of_pos_right acc hf⟩
  | succ fuel ih =>
    intro i f acc hf
    rw [haltonLoop]
    by_cases hi : i = 0
    · simp only [hi, if_true]
      exact ⟨le_refl acc, lt_add_of_pos_right acc hf⟩
    · simp only [hi, if_false]
      have hbase : (0 : ℚ) < (base : ℚ) := by
        exact_mod_cast Nat.lt_of_lt_of_le (by norm_num) hb
      have hf' : 0 < f / base := div_pos hf hbase
      have hm : (0 : ℚ) ≤ ((i % base : ℕ) : ℚ) := by positivity
      obtain ⟨h1, h2⟩ := ih (i / base) (f / base) (acc + f / base * ((i % base : ℕ) : ℚ)) hf'
      refine ⟨le_trans (le_add_of_nonneg_right (mul_nonneg hf'.le hm)) h1, ?_⟩
      have hmb : ((i % base : ℕ) : ℚ) + 1 ≤ (base : ℚ) := by
        have : i % base + 1 ≤ base := Nat.mod_lt i (by omega)
        exact_mod_cast this
      have hstep : f / base * (((i % base : ℕ) : ℚ) + 1) ≤ f / base * (base : ℚ) :=
        mul_le_mul_of_nonneg_left hmb hf'.le
      have hfb : f / base * (base : ℚ) = f := div_mul_cancel₀ f (ne_of_gt hbase)
      have := h2
      nlinarith [hstep, hfb]

theorem halton_bounds (i base : ℕ) (hb : 2 ≤ base) :
    0 ≤ halton i base ∧ halton i base < 1 := by
  have h := haltonLoop_bound base hb i i 1 0 (by norm_num)
  simpa [halton] using h

theorem clampQ_mem (v lo hi : ℚ) :
    min lo hi ≤ clampQ v lo hi ∧ clampQ v lo hi ≤ max lo hi := by
  rw [clampQ]
  split_ifs with h1 h2
  · exact ⟨min_le_left lo hi, le_max_left lo hi⟩
  · exact ⟨min_le_right lo hi, le_max_right lo hi⟩
  · exact ⟨le_trans (min_le_left lo hi) (not_lt.mp h1),
      le_trans (not_lt.mp h2) (le_max_right lo hi)⟩

theorem scaleToInterval_mem (x lo hi : ℚ) :
    min lo hi ≤ scaleToInterval x lo hi ∧ scaleToInterval x lo hi ≤ max lo hi :=
  clampQ_mem _ lo hi

theorem scaleToInterval_of_lt (x lo hi : ℚ) (hx0 : 0 ≤ x) (hx1 : x < 1)
    (hlohi : lo < hi) :
    lo ≤ scaleToInterval x lo hi ∧ scaleToInterval x lo hi < hi := by
  rw [scaleToInterval, clampQ]
  have hraw1 : (hi - lo) * (x - 1) + hi < hi := by nlinarith
  have hraw0 : lo ≤ (hi - lo) * (x - 1) + hi := by nlinarith
  split_ifs with h1 h2
  · exact ⟨le_refl lo, hlohi⟩
  · exact absurd h2 (not_lt.mpr hraw1.le)
  · exact ⟨hraw0, hraw1⟩

/-- Claim C10: for every HSL range triple accepted by
`Qualpal::setInputColorspace` whose hue limits strictly increase, every
triple emitted by `colorGrid<colors::HSL>` has hue in `[0, 360)` (negative
scaled hues wrapped by `+360`) and saturation/lightness inside the requested
ranges. -/
theorem claim_C10_grid_ranges (hLim sLim lLim : ℚ × ℚ) (nPoints : ℕ)
    (hacc : validHslColorspace hLim sLim lLim = true) (hinc : hLim.1 < hLim.2) :
    ∀ c ∈ colorGridHSL hLim sLim lLim nPoints,
      (0 ≤ c.1 ∧ c.1 < 360) ∧
      (min sLim.1 sLim.2 ≤ c.2.1 ∧ c.2.1 ≤ max sLim.1 sLim.2) ∧
      (min lLim.1 lLim.2 ≤ c.2.2 ∧ c.2.2 ≤ max lLim.1 lLim.2) := by
  have hacc' : -360 ≤ hLim.1 ∧ hLim.2 ≤ 360 := by
    rw [validHslColorspace] at hacc
    simp only [Bool.and_eq_true, Bool.not_eq_true', Bool.or_eq_false_iff,
      decide_eq_false_iff_not, not_lt] at hacc
    exact ⟨by linarith [hacc.1.1.1], by linarith [hacc.1.1.2]⟩
  intro c hc
  rw [colorGridHSL, List.mem_map] at hc
  obtain ⟨i, _, hceq⟩ := hc
  obtain ⟨hh2a, hh2b⟩ := halton_bounds i 2 (by norm_num)
  obtain ⟨hhue0, hhue1⟩ :=
    scaleToInterval_of_lt (halton i 2) hLim.1 hLim.2 hh2a hh2b hinc
  subst hceq
  refine ⟨?_, scaleToInterval_mem (halton i 3) sLim.1 sLim.2,
    scaleToInterval_mem (halton i 5) lLim.1 lLim.2⟩
  by_cases hneg : scaleToInterval (halton i 2) hLim.1 hLim.2 < 0
  · simp only [hneg, if_true]
    constructor
    · linarith [hacc'.1]
    · linarith
  · simp only [hneg, if_false]
    constructor
    · exact not_lt.mp hneg
    · linarith [hacc'.2]

theorem validHslColorspace_concrete :
    validHslColorspace (-200, 120) (0, 1) ((0 : ℚ), 1) = true := by
  rw [validHslColorspace]
  norm_num

/-- Witness for C10 at a concrete accepted range triple. -/
theorem claim_C10_grid_ranges_witness :
    (validHslColorspace (-200, 120) (0, 1) ((0 : ℚ), 1) = true ∧
      (-200 : ℚ) < 120) ∧
      ∀ c ∈ colorGridHSL (-200, 120) (0, 1) ((0 : ℚ), 1) 4,
        (0 ≤ c.1 ∧ c.1 < 360) ∧
        (min (0 : ℚ) 1 ≤ c.2.1 ∧ c.2.1 ≤ max (0 : ℚ) 1) ∧
        (min (0 : ℚ) 1 ≤ c.2.2 ∧ c.2.2 ≤ max (0 : ℚ) 1) := by
  refine ⟨⟨validHslColorspace_concrete, by norm_num⟩, ?_⟩
  exact claim_C10_grid_ranges (-200, 120) (0, 1) ((0 : ℚ), 1) 4
    validHslColorspace_concrete (by norm_num)

/-! ### Palette-analysis minimum distances (C8) -/

theorem fpStdMin_fin {α : Type} [LinearOrder α] (a b : α) :
    fpStdMin (Fp.fin a) (Fp.fin b) = Fp.fin (min a b) := by
  rw [fpStdMin, fpLt]
  rcases le_or_lt a b with h | h
  · rw [if_neg (by simpa using not_lt.mpr h), min_eq_left h]
  · rw [if_pos (by simpa using h), min_eq_right h.le]

theorem fpFold_eq {α : Type} [LinearOrder α] (i : ℕ) (M : ℕ → ℕ → α)
    (l : List ℕ) (a : α) :
    l.foldl (fun acc j => if i ≠ j then fpStdMin acc (.fin (M i j)) else acc)
        (.fin a) =
      .fin (l.foldl (fun acc j => if i ≠ j then min acc (M i j) else acc) a) := by
  induction l generalizing a with
  | nil => rfl
  | cons x l ih =>
    simp only [List.foldl_cons]
    by_cases hx : i ≠ x
    · rw [if_pos hx, if_pos hx, fpStdMin_fin, ih]
    · rw [if_neg hx, if_neg hx, ih]

theorem foldMin_spec {α : Type} [LinearOrder α] (i : ℕ) (M : ℕ → ℕ → α) :
    ∀ (l : List ℕ) (a : α),
      (l.foldl (fun acc j => if i ≠ j then min acc (M i j) else acc) a ≤ a ∧
        ∀ j ∈ l, i ≠ j →
          l.foldl (fun acc j => if i ≠ j then min acc (M i j) else acc) a ≤ M i j) ∧
      (l.foldl (fun acc j => if i ≠ j then min acc (M i j) else acc) a = a ∨
        ∃ j ∈ l, i ≠ j ∧
          l.foldl (fun acc j => if i ≠ j then min acc (M i j) else acc) a = M i j) := by
  intro l
  induction l with
  | nil => exact fun a => ⟨⟨le_refl a, by simp⟩, Or.inl rfl⟩
  | cons x l ih =>
    intro a
    simp only [List.foldl_cons]
    by_cases hx : i ≠ x
    · rw [if_pos hx]
      obtain ⟨⟨hle, hall⟩, hat⟩ := ih (min a (M i x))
      refine ⟨⟨le_trans hle (min_le_left a (M i x)), ?_⟩, ?_⟩
      · intro j hj hij
        rcases List.mem_cons.mp hj with hjx | hjl
        · subst hjx
          exact le_trans hle (min_le_right a (M i j))
        · exact hall j hjl hij
      · rcases hat with heq | ⟨j, hjl, hij, heq⟩
        · rcases min_cases a (M i x) with ⟨hmin, _⟩ | ⟨hmin, _⟩
          · exact Or.inl (by rw [heq, hmin])
          · exact Or.inr ⟨x, List.mem_cons_self x l, hx, by rw [heq, hmin]⟩
        · exact Or.inr ⟨j, List.mem_cons_of_mem x hjl, hij, heq⟩
    · rw [if_neg hx]
      obtain ⟨⟨hle, hall⟩, hat⟩ := ih a
      refine ⟨⟨hle, ?_⟩, ?_⟩
      · intro j hj hij
        rcases List.mem_cons.mp hj with hjx | hjl
        · exact absurd (hjx ▸ hij) hx
        · exact hall j hjl hij
      · rcases hat with heq | ⟨j, hjl, hij, heq⟩
        · exact Or.inl heq
        · exact Or.inr ⟨j, List.mem_cons_of_mem x hjl, hij, heq⟩

theorem dblMax_nonneg : (0 : ℝ) ≤ dblMax := by
  rw [dblMax]
  norm_num

/-- Claim C8, corrected: in the `min_distances` computation of
`analyzePalette`, for `N = 1` the single entry is
`std::numeric_limits<double>::max()` (the fold's start value), not NaN; for
`N > 1` each entry `i` is the minimum of row `i` of the difference matrix
over the columns `j ≠ i` (matrix entries being finite doubles, hence
`≤ DBL_MAX`). -/
theorem claim_C8_min_distances (n : ℕ) (M : ℕ → ℕ → ℝ)
    (hM : ∀ i j, i < n → j < n → M i j ≤ dblMax) :
    (n = 1 → minDistances dblMax n n (fun i j => .fin (M i j)) = [.fin dblMax]) ∧
    (2 ≤ n → ∀ i, i < n →
      ∃ j, j < n ∧ j ≠ i ∧
        (minDistances dblMax n n (fun i j => .fin (M i j))).getD i .nan =
          .fin (M i j) ∧
        ∀ k, k < n → k ≠ i → M i j ≤ M i k) := by
  constructor
  · rintro rfl
    rfl
  · intro hn i hi
    have hrow : (minDistances dblMax n n (fun i j => Fp.fin (M i j))).getD i .nan =
        .fin ((List.range n).foldl
          (fun acc j => if i ≠ j then min acc (M i j) else acc) dblMax) := by
      rw [minDistances]
      rw [List.getD_eq_getElem _ _ (by simpa using hi)]
      rw [List.getElem_map]
      simp only [List.getElem_range]
      rw [fpFold_eq]
    obtain ⟨⟨hstart, hall⟩, hat⟩ := foldMin_spec i M (List.range n) dblMax
    have hall' : ∀ k, k < n → k ≠ i →
        (List.range n).foldl (fun acc j => if i ≠ j then min acc (M i j) else acc)
          dblMax ≤ M i k :=
      fun k hk hki => hall k (List.mem_range.mpr hk) (Ne.symm hki)
    rcases hat with heq | ⟨j, hjl, hij, heq⟩
    · -- the fold never went below its start value; the min is still attained
      -- at any off-diagonal column because all entries are at most DBL_MAX
      have hj0 : ∃ j, j < n ∧ j ≠ i := by
        rcases Nat.eq_zero_or_pos i with hi0 | hipos
        · exact ⟨1, by omega, by omega⟩
        · exact ⟨0, by omega, by omega⟩
      obtain ⟨j, hjn, hji⟩ := hj0
      have hfold : (List.range n).foldl
          (fun acc j => if i ≠ j then min acc (M i j) else acc) dblMax = M i j := by
        have h1 := hall' j hjn hji
        have h2 := hM i j hi hjn
        rw [heq] at h1 ⊢
        linarith
      exact ⟨j, hjn, hji, by rw [hrow, hfold],
        fun k hk hki => hfold ▸ hall' k hk hki⟩
    · exact ⟨j, List.mem_range.mp hjl, Ne.symm hij, by rw [hrow, heq],
        fun k hk hki => heq ▸ hall' k hk hki⟩

/-- Counterexample to C8 as stated: for a one-color palette the single
`min_distances` entry is `DBL_MAX`, not NaN. -/
theorem claim_C8_counterexample :
    minDistances dblMax 1 1 (fun _ _ => Fp.fin (0 : ℝ)) ≠ [Fp.nan] := by
  have h : minDistances dblMax 1 1 (fun _ _ => Fp.fin (0 : ℝ)) = [Fp.fin dblMax] := rfl
  rw [h]
  intro hEq
  injection hEq with h1 _
  exact Fp.noConfusion h1

/-- Witness for the corrected C8 at a concrete two-color matrix. -/
theorem claim_C8_min_distances_witness :
    (∀ i j : ℕ, i < 2 → j < 2 → (0 : ℝ) ≤ dblMax) ∧
    ((2 = 1 →
        minDistances dblMax 2 2 (fun _ _ => Fp.fin (0 : ℝ)) = [Fp.fin dblMax]) ∧
      (2 ≤ 2 → ∀ i, i < 2 →
        ∃ j, j < 2 ∧ j ≠ i ∧
          (minDistances dblMax 2 2 (fun _ _ => Fp.fin (0 : ℝ))).getD i .nan =
            Fp.fin 0 ∧
          ∀ k, k < 2 → k ≠ i → (0 : ℝ) ≤ 0)) :=
  ⟨fun _ _ _ _ => dblMax_nonneg,
    claim_C8_min_distances 2 (fun _ _ => 0) fun _ _ _ _ => dblMax_nonneg⟩

/-! ### Round-trip tolerance (C7) -/

/-- On the grey axis with `0 < L ≤ 7` every branch taken by `xyzOfLab` is
the linear one (`fx = fy = fz = (L+16)/116`, cubes below `216/24389`,
`L ≤ κε = 8`), so the result is `L·27/24389` scaled by the D65 white
point. -/
theorem xyzOfLab_grey_low (L : ℝ) (h0 : 0 < L) (h7 : L ≤ 7) :
    colors.xyzOfLab ⟨L, 0, 0⟩ whiteD65 =
      ⟨27 * L / 24389 * 0.95047, 27 * L / 24389 * 1, 27 * L / 24389 * 1.08883⟩ := by
  simp only [colors.xyzOfLab, whiteD65]
  have hb1 : ((0:ℝ) / 500 + (L + 16) / 116) ≤ 23 / 116 := by
    rw [zero_div, zero_add]
    linarith
  have hb1' : (0:ℝ) ≤ 0 / 500 + (L + 16) / 116 := by
    rw [zero_div, zero_add]
    linarith
  have hc1 : ¬ ((216 / 24389 : ℝ) < ((0:ℝ) / 500 + (L + 16) / 116) ^ 3) := by
    rw [not_lt]
    calc ((0:ℝ) / 500 + (L + 16) / 116) ^ 3 ≤ (23 / 116) ^ 3 :=
          pow_le_pow_left₀ hb1' hb1 3
      _ ≤ 216 / 24389 := by norm_num
  have hb3 : (((L:ℝ) + 16) / 116 - 0 / 200) ≤ 23 / 116 := by
    rw [zero_div, sub_zero]
    linarith
  have hb3' : (0:ℝ) ≤ ((L:ℝ) + 16) / 116 - 0 / 200 := by
    rw [zero_div, sub_zero]
    linarith
  have hc3 : ¬ ((216 / 24389 : ℝ) < (((L:ℝ) + 16) / 116 - 0 / 200) ^ 3) := by
    rw [not_lt]
    calc (((L:ℝ) + 16) / 116 - 0 / 200) ^ 3 ≤ (23 / 116) ^ 3 :=
          pow_le_pow_left₀ hb3' hb3 3
      _ ≤ 216 / 24389 := by norm_num
  have h8 : (24389:ℝ) / 27 * (216 / 24389) = 8 := by norm_num
  have hc2 : ¬ ((24389:ℝ) / 27 * (216 / 24389) < L) := by
    rw [not_lt, h8]
    linarith
  rw [if_neg hc1, if_neg hc2, if_neg hc3]
  have he1 : (116 * ((0:ℝ) / 500 + (L + 16) / 116) - 16) / (24389 / 27)
      = 27 * L / 24389 := by
    field_simp
    ring
  have he2 : L / ((24389:ℝ) / 27) = 27 * L / 24389 := by
    field_simp
    ring
  have he3 : (116 * (((L:ℝ) + 16) / 116 - 0 / 200) - 16) / (24389 / 27)
      = 27 * L / 24389 := by
    field_simp
    ring
  rw [he1, he2, he3]
  rw [max_eq_left (by nlinarith : (0:ℝ) ≤ 27 * L / 24389 * 0.95047),
      max_eq_left (by nlinarith : (0:ℝ) ≤ 27 * L / 24389 * 1),
      max_eq_left (by nlinarith : (0:ℝ) ≤ 27 * L / 24389 * 1.08883)]

/-- The `Lab → XYZ → Lab` round trip under the default D65 white point,
on the grey axis with `0 < L ≤ 7`: `Lab::Lab(const XYZ&)` re-enters the
linear branch (since `27L/24389 ≤ 189/24389 < 0.008856`) but with the
legacy `κ = 903.3` where `XYZ::XYZ(const Lab&)` used the exact
`κ = 24389/27`, so lightness comes back multiplied by `903.3·27/24389`,
and the chroma channels come back exactly 0. -/
theorem lab_xyz_lab_grey_low (L : ℝ) (h0 : 0 < L) (h7 : L ≤ 7) :
    colors.labOfXYZ (colors.xyzOfLab ⟨L, 0, 0⟩ whiteD65) whiteD65 =
      ⟨903.3 * (27 * L / 24389), 0, 0⟩ := by
  rw [xyzOfLab_grey_low L h0 h7]
  simp only [colors.labOfXYZ, whiteD65]
  rw [mul_div_cancel_right₀ _ (by norm_num : (0.95047:ℝ) ≠ 0),
      mul_div_cancel_right₀ _ (by norm_num : (1:ℝ) ≠ 0),
      mul_div_cancel_right₀ _ (by norm_num : (1.08883:ℝ) ≠ 0)]
  have hcond : ¬ ((0.008856:ℝ) < 27 * L / 24389) := by
    rw [not_lt]
    linarith
  rw [if_neg hcond]
  have hinner : 116 * ((903.3 * (27 * L / 24389) + 16) / 116) - 16
      = 903.3 * (27 * L / 24389) := by ring
  rw [hinner, sub_self, mul_zero, mul_zero]
  have hv0 : ¬ (903.3 * (27 * L / 24389) < 0) := by
    rw [not_lt]
    nlinarith
  have hv100 : ¬ ((100:ℝ) < 903.3 * (27 * L / 24389)) := by
    rw [not_lt]
    nlinarith
  simp only [clampR]
  rw [if_neg hv0, if_neg hv100,
      if_neg (by norm_num : ¬ ((0:ℝ) < -128)), if_neg (by norm_num : ¬ ((127:ℝ) < 0))]

theorem five_pos : (0:ℝ) < 5 := by norm_num

theorem five_le_seven : (5:ℝ) ≤ 7 := by norm_num

/-- Claim C7, corrected: the conversions do not round-trip within 1e-6 even
in exact real arithmetic, because `Lab::Lab(const XYZ&)` uses the legacy
constants `ε = 0.008856`, `κ = 903.3` while `XYZ::XYZ(const Lab&)` uses
the exact pair `ε = 216/24389`, `κ = 24389/27`. On the shared linear
branch (grey axis, `0 < L ≤ 7`, strictly interior Lab input) the
`Lab → XYZ → Lab` round trip under the default D65 white point returns
exactly `(L + (0.1/24389)·L, 0, 0)`, and the lightness error
`(0.1/24389)·L ≈ 4.1e-6·L` exceeds the claimed 1e-6 tolerance for every
`L ≥ 1/4`. -/
theorem claim_C7_roundtrip_tolerance (L : ℝ) (h0 : 0 < L) (h7 : L ≤ 7) :
    colors.labOfXYZ (colors.xyzOfLab ⟨L, 0, 0⟩ whiteD65) whiteD65 =
      ⟨L + 0.1 / 24389 * L, 0, 0⟩ ∧
    ((1/4 : ℝ) ≤ L →
      1e-6 < |(colors.labOfXYZ (colors.xyzOfLab ⟨L, 0, 0⟩ whiteD65) whiteD65).l - L|) := by
  have h := lab_xyz_lab_grey_low L h0 h7
  have hval : 903.3 * (27 * L / 24389) = L + 0.1 / 24389 * L := by ring
  refine ⟨by rw [h, hval], fun hq => ?_⟩
  rw [h]
  show (1e-6:ℝ) < |903.3 * (27 * L / 24389) - L|
  have habs : 903.3 * (27 * L / 24389) - L = 0.1 / 24389 * L := by ring
  rw [habs, abs_of_nonneg (by linarith : (0:ℝ) ≤ 0.1 / 24389 * L)]
  linarith

/-- Witness for the corrected C7 at the concrete interior input
`Lab(5, 0, 0)`: the round trip returns lightness `5 + 0.5/24389`, an
error of about 2.05e-5. -/
theorem claim_C7_roundtrip_tolerance_witness :
    (0:ℝ) < 5 ∧ (5:ℝ) ≤ 7 ∧
    (colors.labOfXYZ (colors.xyzOfLab ⟨5, 0, 0⟩ whiteD65) whiteD65 =
        ⟨5 + 0.1 / 24389 * 5, 0, 0⟩ ∧
      ((1/4 : ℝ) ≤ 5 →
        1e-6 < |(colors.labOfXYZ (colors.xyzOfLab ⟨5, 0, 0⟩ whiteD65) whiteD65).l - 5|)) :=
  ⟨five_pos, five_le_seven, claim_C7_roundtrip_tolerance 5 five_pos five_le_seven⟩

/-- Counterexample to C7 as stated: `Lab(5, 0, 0)` is strictly inside the
valid Lab range, its XYZ image under the default D65 white point is
strictly inside `(0,1)` in every component, yet the `Lab → XYZ → Lab`
round trip moves the lightness by `0.5/24389 ≈ 2.05e-5 > 1e-6`. -/
theorem claim_C7_counterexample :
    (0 < (⟨5, 0, 0⟩ : colors.Lab).l ∧ (⟨5, 0, 0⟩ : colors.Lab).l < 100 ∧
      -128 < (⟨5, 0, 0⟩ : colors.Lab).a ∧ (⟨5, 0, 0⟩ : colors.Lab).a < 127 ∧
      -128 < (⟨5, 0, 0⟩ : colors.Lab).b ∧ (⟨5, 0, 0⟩ : colors.Lab).b < 127) ∧
    (0 < (colors.xyzOfLab ⟨5, 0, 0⟩ whiteD65).x ∧
      (colors.xyzOfLab ⟨5, 0, 0⟩ whiteD65).x < 1 ∧
      0 < (colors.xyzOfLab ⟨5, 0, 0⟩ whiteD65).y ∧
      (colors.xyzOfLab ⟨5, 0, 0⟩ whiteD65).y < 1 ∧
      0 < (colors.xyzOfLab ⟨5, 0, 0⟩ whiteD65).z ∧
      (colors.xyzOfLab ⟨5, 0, 0⟩ whiteD65).z < 1) ∧
    1e-6 < |(colors.labOfXYZ (colors.xyzOfLab ⟨5, 0, 0⟩ whiteD65) whiteD65).l - 5| := by
  have hx := xyzOfLab_grey_low 5 five_pos five_le_seven
  have hl := lab_xyz_lab_grey_low 5 five_pos five_le_seven
  refine ⟨by norm_num, ?_, ?_⟩
  · rw [hx]
    norm_num
  · rw [hl]
    show (1e-6:ℝ) < |903.3 * (27 * 5 / 24389) - 5|
    rw [abs_of_nonneg (by norm_num)]
    norm_num

/-! ### Metric laws (C3) -/

theorem hypot3_nonneg (a b c : ℝ) : 0 ≤ hypot3 a b c := Real.sqrt_nonneg _

theorem hypot3_sub_comm (a b c d e f : ℝ) :
    hypot3 (a - b) (c - d) (e - f) = hypot3 (b - a) (d - c) (f - e) := by
  rw [hypot3, hypot3]
  congr 1
  ring

theorem hypot3_self_zero : hypot3 0 0 0 = 0 := by
  rw [hypot3]
  norm_num

theorem sind_zero : sind 0 = 0 := by
  rw [sind]
  simp

theorem sind_neg (x : ℝ) : sind (-x) = -sind x := by
  rw [sind, sind, ← Real.sin_neg]
  congr 1
  ring

namespace metrics

theorem din99dDist_symm (pt : Bool) (p s : ℝ) (d1 d2 : colors.DIN99d) :
    din99dDist pt p s d2 d1 = din99dDist pt p s d1 d2 := by
  simp only [din99dDist]
  rw [hypot3_sub_comm]

theorem din99dDist_self (d : colors.DIN99d) :
    din99dDist true 0.74 1.28 d d = 0 := by
  simp only [din99dDist, sub_self, hypot3_self_zero, if_true]
  rw [Real.zero_rpow (by norm_num)]
  ring

theorem din99dDist_nonneg (pt : Bool) (s : ℝ) (hs : 0 ≤ s) (p : ℝ)
    (d1 d2 : colors.DIN99d) : 0 ≤ din99dDist pt p s d1 d2 := by
  simp only [din99dDist]
  split
  · exact mul_nonneg (Real.rpow_nonneg (hypot3_nonneg _ _ _) p) hs
  · exact hypot3_nonneg _ _ _

theorem cie76Dist_symm (l1 l2 : colors.Lab) : cie76Dist l2 l1 = cie76Dist l1 l2 := by
  rw [cie76Dist, cie76Dist, hypot3_sub_comm]

theorem cie76Dist_self (l : colors.Lab) : cie76Dist l l = 0 := by
  rw [cie76Dist]
  simp only [sub_self, hypot3_self_zero]

theorem cie76Dist_nonneg (l1 l2 : colors.Lab) : 0 ≤ cie76Dist l1 l2 :=
  hypot3_nonneg _ _ _

theorem hHatPrime_comm (a b : ℝ) : hHatPrime a b = hHatPrime b a := by
  rw [hHatPrime, hHatPrime, abs_sub_comm]
  split_ifs <;> ring

theorem deltaLittleH_self (h : ℝ) : deltaLittleH h h = 0 := by
  rw [deltaLittleH]
  norm_num

theorem deltaLittleH_antisymm (h1 h2 : ℝ) :
    deltaLittleH h2 h1 = -deltaLittleH h1 h2 := by
  simp only [deltaLittleH]
  rw [abs_sub_comm h1 h2]
  by_cases hc : |h2 - h1| > 180
  · rw [if_pos hc, if_pos hc]
    have hne : h1 ≠ h2 := by
      intro e
      rw [e] at hc
      simp at hc
      linarith
    by_cases hle : h2 ≤ h1
    · rw [if_neg (by intro h; exact hne (le_antisymm h hle)), if_pos hle]
      ring
    · rw [if_pos (le_of_not_le hle), if_neg hle]
      ring
  · rw [if_neg hc, if_neg hc]
    ring

theorem ciedeTail_self (kl kc kh lum c h : ℝ) :
    ciedeTail kl kc kh lum c h lum c h = 0 := by
  simp only [ciedeTail, deltaLittleH_self, zero_div, sind_zero, mul_zero,
    sub_self, zero_pow, Real.sqrt_eq_zero', mul_zero]
  norm_num

theorem ciedeTail_swap (kl kc kh lum1 c1p h1p lum2 c2p h2p : ℝ) :
    ciedeTail kl kc kh lum2 c2p h2p lum1 c1p h1p =
      ciedeTail kl kc kh lum1 c1p h1p lum2 c2p h2p := by
  simp only [ciedeTail]
  rw [hHatPrime_comm h2p h1p, deltaLittleH_antisymm h1p h2p, neg_div, sind_neg,
    add_comm lum2 lum1, add_comm c2p c1p, mul_comm c2p c1p]
  congr 1
  ring

theorem ciedeTail_nonneg (kl kc kh lum1 c1p h1p lum2 c2p h2p : ℝ) :
    0 ≤ ciedeTail kl kc kh lum1 c1p h1p lum2 c2p h2p := by
  simp only [ciedeTail]
  exact Real.sqrt_nonneg _

theorem ciede2000Dist_symm (kl kc kh : ℝ) (x y : colors.Lab) :
    ciede2000Dist kl kc kh y x = ciede2000Dist kl kc kh x y := by
  simp only [ciede2000Dist]
  rw [add_comm (chromaOf y) (chromaOf x)]
  exact ciedeTail_swap _ _ _ _ _ _ _ _ _

theorem ciede2000Dist_self (kl kc kh : ℝ) (x : colors.Lab) :
    ciede2000Dist kl kc kh x x = 0 := by
  simp only [ciede2000Dist]
  exact ciedeTail_self _ _ _ _ _ _

end metrics

/-- Claim C3: each of DIN99d (with the default power transform), CIE76 and
CIEDE2000, applied to arbitrary colors (through their native-space
conversions), is symmetric, vanishes on equal inputs, and is never
negative. -/
theorem claim_C3_metric_laws :
    ((∀ x y, metrics.din99dXYZ x y = metrics.din99dXYZ y x) ∧
      (∀ x, metrics.din99dXYZ x x = 0) ∧
      ∀ x y, 0 ≤ metrics.din99dXYZ x y) ∧
    ((∀ x y, metrics.cie76XYZ x y = metrics.cie76XYZ y x) ∧
      (∀ x, metrics.cie76XYZ x x = 0) ∧
      ∀ x y, 0 ≤ metrics.cie76XYZ x y) ∧
    ((∀ x y, metrics.ciede2000XYZ x y = metrics.ciede2000XYZ y x) ∧
      (∀ x, metrics.ciede2000XYZ x x = 0) ∧
      ∀ x y, 0 ≤ metrics.ciede2000XYZ x y) := by
  refine ⟨⟨fun x y => ?_, fun x => ?_, fun x y => ?_⟩,
    ⟨fun x y => ?_, fun x => ?_, fun x y => ?_⟩,
    ⟨fun x y => ?_, fun x => ?_, fun x y => ?_⟩⟩
  · exact (metrics.din99dDist_symm _ _ _ _ _).symm
  · exact metrics.din99dDist_self _
  · exact metrics.din99dDist_nonneg _ _ (by norm_num) _ _ _
  · exact (metrics.cie76Dist_symm _ _).symm
  · exact metrics.cie76Dist_self _
  · exact metrics.cie76Dist_nonneg _ _
  · exact (metrics.ciede2000Dist_symm _ _ _ _ _).symm
  · exact metrics.ciede2000Dist_self _ _ _ _
  · simp only [metrics.ciede2000XYZ, metrics.ciede2000Dist]
    exact metrics.ciedeTail_nonneg _ _ _ _ _ _ _ _ _

/-! ### Running minima (`listMin`) -/

section ListMinLemmas

variable {α : Type} [LinearOrder α]

theorem listMin_foldl (l : List α) (a : WithTop α) :
    l.foldl (fun (acc : WithTop α) (x : α) => min acc ↑x) a = min a (listMin l) := by
  induction l generalizing a with
  | nil => simp [listMin]
  | cons x l ih =>
    rw [List.foldl_cons, ih]
    have hx : listMin (x :: l) = min ↑x (listMin l) := by
      rw [listMin, List.foldl_cons, ih (min ⊤ ↑x), min_comm ⊤ (↑x : WithTop α),
        min_eq_left le_top]
    rw [hx, min_assoc]

theorem listMin_cons (x : α) (l : List α) :
    listMin (x :: l) = min ↑x (listMin l) := by
  rw [listMin, List.foldl_cons, listMin_foldl, min_comm ⊤ (↑x : WithTop α),
    min_eq_left le_top]

theorem listMin_append (l1 l2 : List α) :
    listMin (l1 ++ l2) = min (listMin l1) (listMin l2) := by
  rw [listMin, List.foldl_append, listMin_foldl]
  rfl

theorem listMin_le {l : List α} {x : α} (hx : x ∈ l) : listMin l ≤ ↑x := by
  induction l with
  | nil => cases hx
  | cons y l ih =>
    rw [listMin_cons]
    rcases List.mem_cons.mp hx with h | h
    · subst h
      exact min_le_left _ _
    · exact le_trans (min_le_right _ _) (ih h)

theorem le_listMin {l : List α} {c : WithTop α} (h : ∀ x ∈ l, c ≤ ↑x) :
    c ≤ listMin l := by
  induction l with
  | nil => exact le_top
  | cons y l ih =>
    rw [listMin_cons]
    exact le_min (h y (List.mem_cons_self y l))
      (ih fun x hx => h x (List.mem_cons_of_mem y hx))

theorem listMin_attained {l : List α} {v : α} (h : listMin l = ↑v) : v ∈ l := by
  induction l with
  | nil =>
    rw [listMin] at h
    exact absurd h.symm (WithTop.coe_ne_top)
  | cons y l ih =>
    rw [listMin_cons] at h
    rcases min_cases (↑y : WithTop α) (listMin l) with ⟨heq, _⟩ | ⟨heq, _⟩
    · rw [heq] at h
      exact List.mem_cons.mpr (Or.inl (WithTop.coe_injective h.symm))
    · rw [heq] at h
      exact List.mem_cons_of_mem y (ih h)

omit [LinearOrder α] in
theorem mem_slotValues {D : ℕ → ℕ → α} {hasBg : Bool} {nColors n : ℕ}
    {r : List ℕ} {i v : ℕ} {x : α} :
    x ∈ slotValues D hasBg nColors n r i v ↔
      ((∃ j, j < n ∧ j ≠ i ∧ x = D (r.getD j 0) v) ∨
        (hasBg = true ∧ x = D v nColors)) := by
  rw [slotValues]
  cases hasBg with
  | false =>
    simp only [if_false, List.append_nil, List.mem_map, List.mem_filter,
      List.mem_range, Bool.false_eq_true, false_and, or_false]
    constructor
    · rintro ⟨j, ⟨hj, hji⟩, rfl⟩
      exact ⟨j, hj, by simpa using hji, rfl⟩
    · rintro ⟨j, hj, hji, rfl⟩
      exact ⟨j, ⟨hj, by simpa using hji⟩, rfl⟩
  | true =>
    simp only [if_true, List.mem_append, List.mem_map, List.mem_filter,
      List.mem_range, List.mem_singleton, true_and]
    constructor
    · rintro (⟨j, ⟨hj, hji⟩, rfl⟩ | rfl)
      · exact Or.inl ⟨j, hj, by simpa using hji, rfl⟩
      · exact Or.inr rfl
    · rintro (⟨j, hj, hji, rfl⟩ | rfl)
      · exact Or.inl ⟨j, ⟨hj, by simpa using hji⟩, rfl⟩
      · exact Or.inr rfl

end ListMinLemmas

/-! ### List and target-vector helpers for the selector -/

theorem getD_set_ne (l : List ℕ) {i j : ℕ} (v : ℕ) (h : i ≠ j) :
    (l.set i v).getD j 0 = l.getD j 0 := by
  simp [List.getD_eq_getElem?_getD, List.getElem?_set_ne h]

theorem getD_set_self (l : List ℕ) {i : ℕ} (v : ℕ) (h : i < l.length) :
    (l.set i v).getD i 0 = v := by
  simp [List.getD_eq_getElem?_getD, List.getElem?_set_self h]

theorem targetsOf_length (hasBg : Bool) (nColors : ℕ) (r : List ℕ) :
    (targetsOf hasBg nColors r).length = r.length + (if hasBg then 1 else 0) := by
  rw [targetsOf]
  cases hasBg <;> simp

theorem targetsOf_getD_lt (hasBg : Bool) (nColors : ℕ) (r : List ℕ) {q : ℕ}
    (h : q < r.length) :
    (targetsOf hasBg nColors r).getD q 0 = r.getD q 0 :=
  List.getD_append _ _ _ _ h

theorem targetsOf_getD_bg (nColors : ℕ) (r : List ℕ) :
    (targetsOf true nColors r).getD r.length 0 = nColors := by
  rw [targetsOf, List.getD_append_right _ _ _ _ (le_refl _)]
  simp

theorem targetsOf_set (hasBg : Bool) (nColors : ℕ) (r : List ℕ) {i : ℕ}
    (v : ℕ) (h : i < r.length) :
    targetsOf hasBg nColors (r.set i v) = (targetsOf hasBg nColors r).set i v := by
  rw [targetsOf, targetsOf, List.set_append, if_pos h]

theorem mem_pairList {m : ℕ} {p : ℕ × ℕ} :
    p ∈ pairList m ↔ p.1 < m ∧ p.2 < m ∧ p.1 ≠ p.2 := by
  rw [pairList]
  cases p with
  | mk a b =>
    simp only [List.mem_filter, List.mem_product, List.mem_range,
      decide_eq_true_eq]
    tauto

/-! ### The pool scan -/

section ScanLemmas

variable {α : Type} [LinearOrder α]

theorem scanFold_spec (score : ℕ → WithTop α) (dOld : WithTop α) (i : ℕ)
    (P : ℕ → Prop) :
    ∀ (l : List ℕ), (∀ k ∈ l, P k) → ∀ acc : WithTop α × ℕ × Bool,
      ((acc.2.2 = false → acc = (dOld, i, false)) ∧
        (acc.2.2 = true → P acc.2.1 ∧ acc.1 = score acc.2.1 ∧ dOld < acc.1)) →
      ((l.foldl (fun acc k =>
          if acc.1 < score k then (score k, k, true) else acc) acc).2.2 = false →
        l.foldl (fun acc k =>
          if acc.1 < score k then (score k, k, true) else acc) acc =
            (dOld, i, false)) ∧
      ((l.foldl (fun acc k =>
          if acc.1 < score k then (score k, k, true) else acc) acc).2.2 = true →
        P (l.foldl (fun acc k =>
          if acc.1 < score k then (score k, k, true) else acc) acc).2.1 ∧
        (l.foldl (fun acc k =>
          if acc.1 < score k then (score k, k, true) else acc) acc).1 =
          score (l.foldl (fun acc k =>
            if acc.1 < score k then (score k, k, true) else acc) acc).2.1 ∧
        dOld < (l.foldl (fun acc k =>
          if acc.1 < score k then (score k, k, true) else acc) acc).1) := by
  intro l
  induction l with
  | nil => exact fun _ acc hacc => hacc
  | cons k l ih =>
    intro hl acc hacc
    rw [List.foldl_cons]
    refine ih (fun x hx => hl x (List.mem_cons_of_mem k hx)) _ ?_
    by_cases hlt : acc.1 < score k
    · rw [if_pos hlt]
      refine ⟨fun h => absurd h (by simp), fun _ => ⟨hl k (List.mem_cons_self k l), rfl, ?_⟩⟩
      rcases Bool.eq_false_or_eq_true acc.2.2 with ht | hf
      · exact lt_trans (hacc.2 ht).2.2 hlt
      · rw [(hacc.1 hf)] at hlt
        exact hlt
    · rw [if_neg hlt]
      exact hacc

theorem scanPool_not_found (D : ℕ → ℕ → α) (hasBg : Bool) (nColors n : ℕ)
    (r rc : List ℕ) (i : ℕ) (dOld : WithTop α)
    (h : (scanPool D hasBg nColors n r rc i dOld).2.2 = false) :
    scanPool D hasBg nColors n r rc i dOld = (dOld, i, false) :=
  (scanFold_spec (fun k => slotMinDist D hasBg nColors n r i (rc.getD k 0))
    dOld i (fun k => k < nColors - n) (List.range (nColors - n))
    (fun k hk => List.mem_range.mp hk) (dOld, i, false)
    ⟨fun _ => rfl, fun h => by cases h⟩).1 h

theorem scanPool_found (D : ℕ → ℕ → α) (hasBg : Bool) (nColors n : ℕ)
    (r rc : List ℕ) (i : ℕ) (dOld : WithTop α)
    (h : (scanPool D hasBg nColors n r rc i dOld).2.2 = true) :
    (scanPool D hasBg nColors n r rc i dOld).2.1 < nColors - n ∧
    (scanPool D hasBg nColors n r rc i dOld).1 =
      slotMinDist D hasBg nColors n r i
        (rc.getD (scanPool D hasBg nColors n r rc i dOld).2.1 0) ∧
    dOld < (scanPool D hasBg nColors n r rc i dOld).1 :=
  (scanFold_spec (fun k => slotMinDist D hasBg nColors n r i (rc.getD k 0))
    dOld i (fun k => k < nColors - n) (List.range (nColors - n))
    (fun k hk => List.mem_range.mp hk) (dOld, i, false)
    ⟨fun _ => rfl, fun h => by cases h⟩).2 h

end ScanLemmas

/-! ### The swap potential -/

section SwapLemmas

variable {α : Type} [LinearOrder α]

theorem MLt_irrefl [DecidableEq α] (M : Multiset α) : ¬ MLt M M := by
  rintro ⟨a, ha, _⟩
  exact lt_irrefl _ ha

theorem MLt_trans [DecidableEq α] {M1 M2 M3 : Multiset α}
    (h12 : MLt M1 M2) (h23 : MLt M2 M3) : MLt M1 M3 := by
  obtain ⟨a, ha, hba⟩ := h12
  obtain ⟨b, hb, hbb⟩ := h23
  rcases lt_trichotomy a b with hab | hab | hab
  · exact ⟨a, by rw [← hbb a hab]; exact ha,
      fun x hx => (hba x hx).trans (hbb x (hx.trans hab))⟩
  · subst hab
    exact ⟨a, lt_trans hb ha, fun x hx => (hba x hx).trans (hbb x hx)⟩
  · exact ⟨b, by rw [hba b hab]; exact hb,
      fun x hx => (hba x (hx.trans hab)).trans (hbb x hx)⟩

theorem MLt_ne [DecidableEq α] {M1 M2 : Multiset α} (h : MLt M1 M2) :
    M1 ≠ M2 := by
  rintro rfl
  exact MLt_irrefl M1 h

omit [LinearOrder α] in
/-- A distance value whose pair involves position `i` (with the slot value
`w` read at `i` and the other positions read from the targets of `r`)
appears among the values scanned by `slotMinDist` for `w` in slot `i`. -/
theorem pair_value_mem_slotValues (D : ℕ → ℕ → α) (hasBg : Bool)
    (nColors n : ℕ) (r : List ℕ) (i w : ℕ)
    (hD : ∀ a b, D a b = D b a) (hlen : r.length = n)
    (g : ℕ → ℕ) (hgi : g i = w)
    (hgo : ∀ q, q ≠ i → g q = (targetsOf hasBg nColors r).getD q 0)
    (p : ℕ × ℕ) (hp1 : p.1 < (targetsOf hasBg nColors r).length)
    (hp2 : p.2 < (targetsOf hasBg nColors r).length)
    (hne : p.1 ≠ p.2) (hq : p.1 = i ∨ p.2 = i) :
    D (g p.1) (g p.2) ∈ slotValues D hasBg nColors n r i w := by
  have hm : (targetsOf hasBg nColors r).length = n + (if hasBg then 1 else 0) := by
    rw [targetsOf_length, hlen]
  rcases hq with hq1 | hq2
  · -- p.1 = i, hence p.2 ≠ i
    have hp2i : p.2 ≠ i := fun h => hne (by rw [hq1, h])
    rw [hq1, hgi, hgo p.2 hp2i]
    by_cases hc : p.2 < n
    · rw [targetsOf_getD_lt hasBg nColors r (by omega), hD]
      exact mem_slotValues.mpr (Or.inl ⟨p.2, hc, hp2i, rfl⟩)
    · have hbg : hasBg = true := by
        cases hasBg
        · rw [hm] at hp2
          simp at hp2
          omega
        · rfl
      subst hbg
      have hp2n : p.2 = n := by
        rw [hm] at hp2
        simp at hp2
        omega
      rw [hp2n, ← hlen, targetsOf_getD_bg]
      exact mem_slotValues.mpr (Or.inr ⟨rfl, rfl⟩)
  · -- p.2 = i, hence p.1 ≠ i
    have hp1i : p.1 ≠ i := fun h => hne (by rw [hq2, h])
    rw [hq2, hgi, hgo p.1 hp1i]
    by_cases hc : p.1 < n
    · rw [targetsOf_getD_lt hasBg nColors r (by omega)]
      exact mem_slotValues.mpr (Or.inl ⟨p.1, hc, hp1i, rfl⟩)
    · have hbg : hasBg = true := by
        cases hasBg
        · rw [hm] at hp1
          simp at hp1
          omega
        · rfl
      subst hbg
      have hp1n : p.1 = n := by
        rw [hm] at hp1
        simp at hp1
        omega
      rw [hp1n, ← hlen, targetsOf_getD_bg, hD]
      exact mem_slotValues.mpr (Or.inr ⟨rfl, rfl⟩)

omit [LinearOrder α] in
/-- Conversely, a value scanned by `slotMinDist` for the current occupant of
slot `i` arises as a pair (involving `i`) of targets of `r`. -/
theorem slotValue_is_pair_value (D : ℕ → ℕ → α) (hasBg : Bool)
    (nColors n : ℕ) (r : List ℕ) (i : ℕ)
    (hlen : r.length = n) (hi : i < n) {a : α}
    (ha : a ∈ slotValues D hasBg nColors n r i (r.getD i 0)) :
    ∃ p : ℕ × ℕ, (p.1 < (targetsOf hasBg nColors r).length ∧
          p.2 < (targetsOf hasBg nColors r).length ∧ p.1 ≠ p.2) ∧
      (p.1 = i ∨ p.2 = i) ∧
      D ((targetsOf hasBg nColors r).getD p.1 0)
        ((targetsOf hasBg nColors r).getD p.2 0) = a := by
  have hm : (targetsOf hasBg nColors r).length = n + (if hasBg then 1 else 0) := by
    rw [targetsOf_length, hlen]
  rcases mem_slotValues.mp ha with ⟨j, hj, hji, rfl⟩ | ⟨hbg, rfl⟩
  · refine ⟨(j, i), ⟨by omega, by omega, hji⟩, Or.inr rfl, ?_⟩
    rw [targetsOf_getD_lt hasBg nColors r (by omega),
      targetsOf_getD_lt hasBg nColors r (by omega)]
  · subst hbg
    refine ⟨(i, n), ⟨by omega, by simp [hm], by omega⟩, Or.inl rfl, ?_⟩
    rw [targetsOf_getD_lt true nColors r (by omega), ← hlen, targetsOf_getD_bg]

/-- The central potential step: replacing the occupant of slot `i < n` by a
value with a strictly larger slot minimum strictly advances `phi` in the
`MLt` order. -/
theorem phi_swap_MLt (D : ℕ → ℕ → α) (hasBg : Bool) (nColors n : ℕ)
    (r : List ℕ) (i new : ℕ) (hD : ∀ a b, D a b = D b a)
    (hlen : r.length = n) (hi : i < n)
    (hlt : slotMinDist D hasBg nColors n r i (r.getD i 0) <
      slotMinDist D hasBg nColors n r i new) :
    MLt (phi D hasBg nColors r) (phi D hasBg nColors (r.set i new)) := by
  classical
  set t := targetsOf hasBg nColors r with ht
  have hit : i < t.length := by
    rw [ht, targetsOf_length, hlen]
    omega
  have htset : targetsOf hasBg nColors (r.set i new) = t.set i new := by
    rw [ht]
    exact targetsOf_set hasBg nColors r new (hlen ▸ hi)
  set pl := pairList t.length with hpl
  set f : ℕ × ℕ → α := fun p => D (t.getD p.1 0) (t.getD p.2 0) with hf
  set fNew : ℕ × ℕ → α :=
    fun p => D ((t.set i new).getD p.1 0) ((t.set i new).getD p.2 0) with hfNew
  set q : ℕ × ℕ → Bool := fun p => decide (p.1 = i ∨ p.2 = i) with hq
  have hphi1 : phi D hasBg nColors r = ↑(pl.map f) := rfl
  have hphi2 : phi D hasBg nColors (r.set i new) = ↑(pl.map fNew) := by
    rw [phi, htset, List.length_set]
  have hperm : (pl.filter q ++ pl.filter fun p => !q p).Perm pl :=
    List.filter_append_perm q pl
  have hsplit1 : (↑(pl.map f) : Multiset α) =
      ↑((pl.filter q).map f) + ↑((pl.filter fun p => !q p).map f) := by
    rw [Multiset.coe_add, Multiset.coe_eq_coe, ← List.map_append]
    exact (hperm.map f).symm
  have hCongr : ((pl.filter fun p => !q p).map fNew) =
      ((pl.filter fun p => !q p).map f) := by
    apply List.map_congr_left
    intro p hp
    have hnq : ¬ (p.1 = i ∨ p.2 = i) := by
      have := (List.mem_filter.mp hp).2
      simpa [hq] using this
    push_neg at hnq
    show D ((t.set i new).getD p.1 0) ((t.set i new).getD p.2 0) =
      D (t.getD p.1 0) (t.getD p.2 0)
    rw [getD_set_ne t new (fun h => hnq.1 h.symm),
      getD_set_ne t new (fun h => hnq.2 h.symm)]
  have hsplit2 : (↑(pl.map fNew) : Multiset α) =
      ↑((pl.filter q).map fNew) + ↑((pl.filter fun p => !q p).map f) := by
    rw [← hCongr, Multiset.coe_add, Multiset.coe_eq_coe, ← List.map_append]
    exact (hperm.map fNew).symm
  set dOld := slotMinDist D hasBg nColors n r i (r.getD i 0) with hdOld
  set dNew := slotMinDist D hasBg nColors n r i new with hdNew
  -- every pair value involving `i` under the old occupant is at least dOld
  have hA : ∀ x ∈ (pl.filter q).map f, dOld ≤ ↑x := by
    intro x hx
    obtain ⟨p, hpf, rfl⟩ := List.mem_map.mp hx
    obtain ⟨hppl, hpq⟩ := List.mem_filter.mp hpf
    obtain ⟨hp1, hp2, hpne⟩ := mem_pairList.mp hppl
    have hqor : p.1 = i ∨ p.2 = i := by simpa [hq] using hpq
    refine listMin_le (pair_value_mem_slotValues D hasBg nColors n r i
      (r.getD i 0) hD hlen (fun q' => t.getD q' 0) ?_ (fun _ _ => rfl)
      p hp1 hp2 hpne hqor)
    rw [ht]
    exact targetsOf_getD_lt hasBg nColors r (hlen ▸ hi)
  -- every pair value involving `i` under the new occupant is at least dNew
  have hB : ∀ x ∈ (pl.filter q).map fNew, dNew ≤ ↑x := by
    intro x hx
    obtain ⟨p, hpf, rfl⟩ := List.mem_map.mp hx
    obtain ⟨hppl, hpq⟩ := List.mem_filter.mp hpf
    obtain ⟨hp1, hp2, hpne⟩ := mem_pairList.mp hppl
    have hqor : p.1 = i ∨ p.2 = i := by simpa [hq] using hpq
    refine listMin_le (pair_value_mem_slotValues D hasBg nColors n r i
      new hD hlen (fun q' => (t.set i new).getD q' 0)
      (getD_set_self t new hit) (fun q' hq' => getD_set_ne t new fun h => hq' h.symm)
      p hp1 hp2 hpne hqor)
  -- dOld is attained by a pair value involving `i`
  have hdTop : dOld ≠ ⊤ := by
    intro h
    rw [h] at hlt
    exact absurd hlt (not_top_lt)
  obtain ⟨a, ha⟩ := WithTop.ne_top_iff_exists.mp hdTop
  have haA : a ∈ (pl.filter q).map f := by
    have hmem : a ∈ slotValues D hasBg nColors n r i (r.getD i 0) :=
      listMin_attained ha.symm
    obtain ⟨p, ⟨hp1, hp2, hpne⟩, hqor, hval⟩ :=
      slotValue_is_pair_value D hasBg nColors n r i hlen hi hmem
    refine List.mem_map.mpr ⟨p, List.mem_filter.mpr
      ⟨mem_pairList.mpr ⟨hp1, hp2, hpne⟩, by simpa [hq] using hqor⟩, hval⟩
  -- assemble the MLt step at value `a`
  rw [hphi1, hphi2, hsplit1, hsplit2]
  refine ⟨a, ?_, ?_⟩
  · simp only [Multiset.count_add, Multiset.coe_count]
    have hBz : ((pl.filter q).map fNew).count a = 0 := by
      rw [List.count_eq_zero]
      intro hmem
      have hle := hB a hmem
      rw [ha] at hle
      exact absurd (lt_of_lt_of_le hlt hle) (lt_irrefl _)
    have hAp : 0 < ((pl.filter q).map f).count a := List.count_pos_iff.mpr haA
    omega
  · intro x hx
    simp only [Multiset.count_add, Multiset.coe_count]
    have hAz : ((pl.filter q).map f).count x = 0 := by
      rw [List.count_eq_zero]
      intro hmem
      have := hA x hmem
      rw [← ha] at this
      exact absurd hx (not_lt.mpr (WithTop.coe_le_coe.mp this))
    have hBz : ((pl.filter q).map fNew).count x = 0 := by
      rw [List.count_eq_zero]
      intro hmem
      have h1 := hB x hmem
      have h2 : dOld < (↑x : WithTop α) := lt_of_lt_of_le hlt h1
      rw [← ha] at h2
      exact absurd hx (not_lt.mpr (le_of_lt (WithTop.coe_lt_coe.mp h2)))
    omega

end SwapLemmas

/-! ### Step, sweep, and termination of the local search -/

section SweepLemmas

variable {α : Type} [LinearOrder α]

/-- `stepSlot` either leaves the state unchanged or performs the swap the
scan selected, with a strict slot-score improvement. -/
theorem stepSlot_eq (D : ℕ → ℕ → α) (hasBg : Bool) (nColors n : ℕ)
    (s : SelState) (i : ℕ) :
    stepSlot D hasBg nColors n s i = s ∨
      ∃ k, k < nColors - n ∧
        slotMinDist D hasBg nColors n s.r i (s.r.getD i 0) <
          slotMinDist D hasBg nColors n s.r i (s.rc.getD k 0) ∧
        stepSlot D hasBg nColors n s i =
          ⟨s.r.set i (s.rc.getD k 0), s.rc.set k (s.r.getD i 0)⟩ := by
  rw [stepSlot]
  by_cases hf : (scanPool D hasBg nColors n s.r s.rc i
      (slotMinDist D hasBg nColors n s.r i (s.r.getD i 0))).2.2
  · obtain ⟨hk, heq, hlt⟩ := scanPool_found D hasBg nColors n s.r s.rc i _ hf
    exact Or.inr ⟨_, hk, heq ▸ hlt, if_pos hf⟩
  · exact Or.inl (if_neg hf)

theorem stepSlot_inv (D : ℕ → ℕ → α) (hasBg : Bool) (nColors n nFixed : ℕ)
    (s : SelState) (i : ℕ) (hInv : SelInv nColors n nFixed s)
    (hi1 : nFixed ≤ i) (hi2 : i < n) :
    SelInv nColors n nFixed (stepSlot D hasBg nColors n s i) := by
  obtain ⟨hrl, hrcl, hpre, hsuf, hrc⟩ := hInv
  rcases stepSlot_eq D hasBg nColors n s i with heq | ⟨k, hk, _, heq⟩
  · rw [heq]
    exact ⟨hrl, hrcl, hpre, hsuf, hrc⟩
  · rw [heq]
    refine ⟨by simpa using hrl, by simpa using hrcl, ?_, ?_, ?_⟩
    · intro j hj
      show (s.r.set i (s.rc.getD k 0)).getD j 0 = j
      rw [getD_set_ne s.r _ (by omega : i ≠ j)]
      exact hpre j hj
    · intro j hj1 hj2
      show nFixed ≤ (s.r.set i (s.rc.getD k 0)).getD j 0 ∧
        (s.r.set i (s.rc.getD k 0)).getD j 0 < nColors
      by_cases hji : j = i
      · subst hji
        rw [getD_set_self s.r _ (by omega : j < s.r.length)]
        exact hrc k hk
      · rw [getD_set_ne s.r _ (fun h => hji h.symm)]
        exact hsuf j hj1 hj2
    · intro k2 hk2
      show nFixed ≤ (s.rc.set k (s.r.getD i 0)).getD k2 0 ∧
        (s.rc.set k (s.r.getD i 0)).getD k2 0 < nColors
      by_cases hkk : k2 = k
      · subst hkk
        rw [getD_set_self s.rc _ (lt_of_lt_of_le hk hrcl)]
        exact hsuf i hi1 hi2
      · rw [getD_set_ne s.rc _ (fun h => hkk h.symm)]
        exact hrc k2 hk2

theorem stepSlot_progress (D : ℕ → ℕ → α) (hasBg : Bool) (nColors n nFixed : ℕ)
    (s : SelState) (i : ℕ) (hD : ∀ a b, D a b = D b a)
    (hInv : SelInv nColors n nFixed s) (hi2 : i < n) :
    stepSlot D hasBg nColors n s i = s ∨
      MLt (phi D hasBg nColors s.r)
        (phi D hasBg nColors (stepSlot D hasBg nColors n s i).r) := by
  rcases stepSlot_eq D hasBg nColors n s i with heq | ⟨k, hk, hlt, heq⟩
  · exact Or.inl heq
  · right
    rw [heq]
    exact phi_swap_MLt D hasBg nColors n s.r i _ hD hInv.1 hi2 hlt

theorem sweepOnce_inv (D : ℕ → ℕ → α) (hasBg : Bool) (nColors n nFixed : ℕ)
    (s : SelState) (hInv : SelInv nColors n nFixed s) :
    SelInv nColors n nFixed (sweepOnce D hasBg nColors n nFixed s) := by
  rw [sweepOnce]
  have hgen : ∀ (l : List ℕ), (∀ x ∈ l, nFixed ≤ x ∧ x < n) → ∀ s2,
      SelInv nColors n nFixed s2 →
      SelInv nColors n nFixed (l.foldl (stepSlot D hasBg nColors n) s2) := by
    intro l
    induction l with
    | nil => exact fun _ _ h => h
    | cons x l ih =>
      intro hl s2 h2
      rw [List.foldl_cons]
      exact ih (fun y hy => hl y (List.mem_cons_of_mem x hy)) _
        (stepSlot_inv D hasBg nColors n nFixed s2 x h2
          (hl x (List.mem_cons_self x l)).1 (hl x (List.mem_cons_self x l)).2)
  refine hgen _ ?_ s hInv
  intro x hx
  have := List.mem_range'_1.mp hx
  omega

theorem sweepOnce_progress (D : ℕ → ℕ → α) (hasBg : Bool)
    (nColors n nFixed : ℕ) (s : SelState) (hD : ∀ a b, D a b = D b a)
    (hInv : SelInv nColors n nFixed s) :
    sweepOnce D hasBg nColors n nFixed s = s ∨
      MLt (phi D hasBg nColors s.r)
        (phi D hasBg nColors (sweepOnce D hasBg nColors n nFixed s).r) := by
  rw [sweepOnce]
  have hgen : ∀ (l : List ℕ), (∀ x ∈ l, nFixed ≤ x ∧ x < n) → ∀ s2,
      SelInv nColors n nFixed s2 →
      (l.foldl (stepSlot D hasBg nColors n) s2 = s2 ∨
        MLt (phi D hasBg nColors s2.r)
          (phi D hasBg nColors ((l.foldl (stepSlot D hasBg nColors n) s2)).r)) := by
    intro l
    induction l with
    | nil => exact fun _ _ _ => Or.inl rfl
    | cons x l ih =>
      intro hl s2 h2
      rw [List.foldl_cons]
      have hx := hl x (List.mem_cons_self x l)
      have hstep := stepSlot_progress D hasBg nColors n nFixed s2 x hD h2 hx.2
      have hinv3 := stepSlot_inv D hasBg nColors n nFixed s2 x h2 hx.1 hx.2
      have hih := ih (fun y hy => hl y (List.mem_cons_of_mem x hy)) _ hinv3
      rcases hstep with hs | hs
      · rw [hs] at hih ⊢
        exact hih
      · rcases hih with hz | hz
        · rw [hz]
          exact Or.inr hs
        · exact Or.inr (MLt_trans hs hz)
  refine hgen _ ?_ s hInv
  intro x hx
  have := List.mem_range'_1.mp hx
  omega

theorem iterate_sweep_inv (D : ℕ → ℕ → α) (hasBg : Bool)
    (nColors n nFixed : ℕ) (s0 : SelState)
    (hInv : SelInv nColors n nFixed s0) (k : ℕ) :
    SelInv nColors n nFixed ((sweepOnce D hasBg nColors n nFixed)^[k] s0) := by
  induction k with
  | zero => exact hInv
  | succ k ih =>
    rw [Function.iterate_succ_apply']
    exact sweepOnce_inv D hasBg nColors n nFixed _ ih

/-- Termination of the sweep loop: within the fuel bound, some full sweep
performs no swap. -/
theorem sweeps_reach_fixpoint (D : ℕ → ℕ → α) (hasBg : Bool)
    (nColors n nFixed : ℕ) (hD : ∀ a b, D a b = D b a) (s0 : SelState)
    (hInv : SelInv nColors n nFixed s0) :
    ∃ k, k ≤ (nColors + n) ^ n ∧
      sweepOnce D hasBg nColors n nFixed
          ((sweepOnce D hasBg nColors n nFixed)^[k] s0) =
        (sweepOnce D hasBg nColors n nFixed)^[k] s0 := by
  classical
  by_contra hcon
  push_neg at hcon
  set F := (nColors + n) ^ n with hF
  set g := sweepOnce D hasBg nColors n nFixed with hg
  have hInvIter : ∀ k, SelInv nColors n nFixed (g^[k] s0) :=
    iterate_sweep_inv D hasBg nColors n nFixed s0 hInv
  have hMLt : ∀ k, k ≤ F → MLt (phi D hasBg nColors (g^[k] s0).r)
      (phi D hasBg nColors (g^[k + 1] s0).r) := by
    intro k hk
    have hprog := sweepOnce_progress D hasBg nColors n nFixed (g^[k] s0) hD
      (hInvIter k)
    rcases hprog with he | hm
    · exact absurd he (hcon k hk)
    · rw [Function.iterate_succ_apply']
      exact hm
  have hchain : ∀ j k, j < k → k ≤ F + 1 →
      MLt (phi D hasBg nColors (g^[j] s0).r)
        (phi D hasBg nColors (g^[k] s0).r) := by
    intro j k
    induction k with
    | zero => omega
    | succ k ih =>
      intro hjk hk
      by_cases hjeq : j = k
      · subst hjeq
        exact hMLt j (by omega)
      · exact MLt_trans (ih (by omega) (by omega)) (hMLt k (by omega))
  have hne : ∀ j k, j < k → k ≤ F + 1 → (g^[j] s0).r ≠ (g^[k] s0).r := by
    intro j k hjk hk heq
    exact MLt_ne (hchain j k hjk hk) (congrArg (phi D hasBg nColors) heq)
  have hbound : ∀ k j, j < n → (g^[k] s0).r.getD j 0 < nColors + n := by
    intro k j hj
    obtain ⟨hrl, _, hpre, hsuf, _⟩ := hInvIter k
    by_cases hjf : j < nFixed
    · rw [hpre j hjf]
      omega
    · have := hsuf j (by omega) hj
      omega
  set Θ : Fin (F + 2) → (Fin n → Fin (nColors + n)) :=
    fun k j => ⟨(g^[(k : ℕ)] s0).r.getD (j : ℕ) 0, hbound _ _ j.2⟩ with hΘ
  have hinj : Function.Injective Θ := by
    intro k1 k2 hkk
    by_contra hne12
    rcases Nat.lt_or_ge (k1 : ℕ) (k2 : ℕ) with hlt | hge
    · refine hne (k1 : ℕ) (k2 : ℕ) hlt (by omega) ?_
      apply List.ext_getElem
      · rw [(hInvIter _).1, (hInvIter _).1]
      · intro m h1 h2
        have hmn : m < n := by
          rw [(hInvIter _).1] at h1
          exact h1
        have := congrFun hkk ⟨m, hmn⟩
        rw [hΘ] at this
        simp only [Fin.mk.injEq] at this
        rw [← List.getD_eq_getElem _ 0 h1, ← List.getD_eq_getElem _ 0 h2]
        exact this
    · have hlt2 : (k2 : ℕ) < (k1 : ℕ) := by
        rcases Nat.lt_or_ge (k2 : ℕ) (k1 : ℕ) with h | h
        · exact h
        · exact absurd (Fin.ext (by omega)) hne12
      refine hne (k2 : ℕ) (k1 : ℕ) hlt2 (by omega) ?_
      apply List.ext_getElem
      · rw [(hInvIter _).1, (hInvIter _).1]
      · intro m h1 h2
        have hmn : m < n := by
          rw [(hInvIter _).1] at h1
          exact h1
        have := congrFun hkk ⟨m, hmn⟩
        rw [hΘ] at this
        simp only [Fin.mk.injEq] at this
        rw [← List.getD_eq_getElem _ 0 h1, ← List.getD_eq_getElem _ 0 h2]
        exact this.symm
  have hcard := Fintype.card_le_of_injective Θ hinj
  rw [Fintype.card_fin, Fintype.card_fun, Fintype.card_fin, Fintype.card_fin]
    at hcard
  omega

/-- The bounded iteration `runSweeps` lands on a sweep fixpoint, which is
exactly the state in which the C++ `while (set_changed)` loop stops. -/
theorem runSweeps_stable (D : ℕ → ℕ → α) (hasBg : Bool)
    (nColors n nFixed : ℕ) (hD : ∀ a b, D a b = D b a) (s0 : SelState)
    (hInv : SelInv nColors n nFixed s0) :
    sweepOnce D hasBg nColors n nFixed
        (runSweeps D hasBg nColors n nFixed s0) =
      runSweeps D hasBg nColors n nFixed s0 := by
  obtain ⟨k, hk, hfix⟩ :=
    sweeps_reach_fixpoint D hasBg nColors n nFixed hD s0 hInv
  set g := sweepOnce D hasBg nColors n nFixed with hg
  have hconst : ∀ m, g^[k + m] s0 = g^[k] s0 := by
    intro m
    induction m with
    | zero => rfl
    | succ m ih =>
      have : k + (m + 1) = (k + m) + 1 := by omega
      rw [this, Function.iterate_succ_apply', ih]
      exact hfix
  rw [runSweeps, ← hg]
  have hsplit : (nColors + n) ^ n = k + ((nColors + n) ^ n - k) := by omega
  rw [hsplit, hconst ((nColors + n) ^ n - k), hfix]

theorem runSweeps_inv (D : ℕ → ℕ → α) (hasBg : Bool)
    (nColors n nFixed : ℕ) (s0 : SelState)
    (hInv : SelInv nColors n nFixed s0) :
    SelInv nColors n nFixed (runSweeps D hasBg nColors n nFixed s0) :=
  iterate_sweep_inv D hasBg nColors n nFixed s0 hInv _

end SweepLemmas

/-! ### The initial state, the ordering pass, and the assembled selector -/

section AssemblyLemmas

variable {α : Type} [LinearOrder α]

theorem getD_range {n j : ℕ} (h : j < n) : (List.range n).getD j 0 = j := by
  rw [List.getD_eq_getElem _ 0 (by simpa using h), List.getElem_range]

theorem getD_map_range {m k n : ℕ} (h : k < m) :
    ((List.range m).map (n + ·)).getD k 0 = n + k := by
  rw [List.getD_eq_getElem _ 0 (by simpa using h), List.getElem_map,
    List.getElem_range]

omit [LinearOrder α] in
theorem initState_inv (nColors n nFixed : ℕ) (hnf : nFixed ≤ n)
    (hval : n - nFixed ≤ nColors - nFixed) :
    SelInv nColors n nFixed (initState n (nColors - nFixed)) := by
  refine ⟨by simp [initState], by simp [initState]; omega, ?_, ?_, ?_⟩
  · intro j hj
    exact getD_range (by omega)
  · intro j hj1 hj2
    rw [show (initState n (nColors - nFixed)).r = List.range n from rfl,
      getD_range hj2]
    omega
  · intro k hk
    rw [show (initState n (nColors - nFixed)).rc =
      (List.range (nColors - nFixed)).map (n + ·) from rfl,
      getD_map_range (by omega)]
    omega

theorem sortSuffix_length (D : ℕ → ℕ → α) (nFixed : ℕ) (r : List ℕ)
    (h : nFixed ≤ r.length) :
    (sortSuffix D nFixed r).length = r.length := by
  rw [sortSuffix]
  simp only [List.length_append, List.length_take, List.length_mergeSort,
    List.length_drop]
  omega

theorem sortSuffix_getD_lt (D : ℕ → ℕ → α) (nFixed : ℕ) (r : List ℕ) {j : ℕ}
    (hj : j < nFixed) (hle : nFixed ≤ r.length) :
    (sortSuffix D nFixed r).getD j 0 = r.getD j 0 := by
  rw [sortSuffix,
    List.getD_append _ _ _ _ (by simp [List.length_take]; omega)]
  rw [List.getD_eq_getElem _ 0 (by simp [List.length_take]; omega),
    List.getD_eq_getElem _ 0 (by omega), List.getElem_take]

theorem sortSuffix_suffix_mem (D : ℕ → ℕ → α) (nFixed : ℕ) (r : List ℕ)
    {j : ℕ} (h1 : nFixed ≤ j) (h2 : j < r.length) :
    (sortSuffix D nFixed r).getD j 0 ∈ r.drop nFixed := by
  rw [sortSuffix, List.getD_append_right _ _ _ _
    (by simp [List.length_take]; omega)]
  have hlen : j - (List.take nFixed r).length <
      ((r.drop nFixed).mergeSort
        (fun a b => decide (sortKey D nFixed r b ≤ sortKey D nFixed r a))).length := by
    simp [List.length_take, List.length_mergeSort, List.length_drop]
    omega
  rw [List.getD_eq_getElem _ 0 hlen]
  exact List.mem_mergeSort.mp (List.getElem_mem hlen)

theorem mem_drop_bounds {nColors n nFixed : ℕ} {s : SelState}
    (hInv : SelInv nColors n nFixed s) {v : ℕ} (hv : v ∈ s.r.drop nFixed) :
    nFixed ≤ v ∧ v < nColors := by
  obtain ⟨m, hm, heq⟩ := List.mem_iff_getElem.mp hv
  rw [List.getElem_drop] at heq
  have hlt : nFixed + m < s.r.length := by
    simp [List.length_drop] at hm
    omega
  have := hInv.2.2.2.1 (nFixed + m) (by omega) (by rw [← hInv.1]; omega)
  rw [List.getD_eq_getElem _ 0 hlt, heq] at this
  exact this

end AssemblyLemmas

theorem triFill_symm {γ β : Type} [Inhabited γ] [Zero β] (colors : List γ)
    (metric : γ → γ → β) (i j : ℕ) :
    (if i = j then (0 : β)
      else if i < j then metric (colors.getD i default) (colors.getD j default)
      else metric (colors.getD j default) (colors.getD i default)) =
    (if j = i then (0 : β)
      else if j < i then metric (colors.getD j default) (colors.getD i default)
      else metric (colors.getD i default) (colors.getD j default)) := by
  rcases lt_trichotomy i j with h | h | h
  · simp [h.ne, h.ne.symm, h, not_lt.mpr h.le]
  · simp [h]
  · simp [h.ne, h.ne.symm, h, not_lt.mpr h.le]

theorem colorDifferenceMatrixRT_ok (cols : List colors.XYZ)
    (mt : metrics.MetricType) (mm : ℚ) (hne : cols ≠ [])
    (hchk : checkMatrixSize cols.length mm = true) :
    ∃ M, colorDifferenceMatrixRT cols mt mm = .ok M ∧
      M.nrow = cols.length ∧ M.ncol = cols.length ∧
      ∀ i j, M.entry i j = M.entry j i := by
  cases mt with
  | DIN99d =>
    exact ⟨_, by rw [colorDifferenceMatrixRT,
        colorDifferenceMatrix_ok cols metrics.din99dXYZ mm hne hchk], rfl, rfl,
      fun i j => triFill_symm cols metrics.din99dXYZ i j⟩
  | CIE76 =>
    exact ⟨_, by rw [colorDifferenceMatrixRT,
        colorDifferenceMatrix_ok cols metrics.cie76XYZ mm hne hchk], rfl, rfl,
      fun i j => triFill_symm cols metrics.cie76XYZ i j⟩
  | CIEDE2000 =>
    exact ⟨_, by rw [colorDifferenceMatrixRT,
        colorDifferenceMatrix_ok cols metrics.ciede2000XYZ mm hne hchk], rfl, rfl,
      fun i j => triFill_symm cols metrics.ciede2000XYZ i j⟩

/-- Success and output shape of the modelled `farthestPoints` on every valid
call (the shared core behind the C1 and C2 claims). -/
theorem farthestPoints_ok_shape (n : ℕ) (cols : List colors.XYZ)
    (mt : metrics.MetricType) (hasBg : Bool) (nFixed : ℕ) (mm : ℚ)
    (hne : cols ≠ []) (hchk : checkMatrixSize cols.length mm = true)
    (hnf : nFixed ≤ n)
    (hvalid : n - nFixed ≤ (cols.length - (if hasBg then 1 else 0)) - nFixed) :
    ∃ res, farthestPoints n cols mt hasBg nFixed mm = .ok res ∧
      res.length = n ∧
      (∀ j, j < nFixed → res.getD j 0 = j) ∧
      (∀ j, nFixed ≤ j → j < n →
        nFixed ≤ res.getD j 0 ∧
        res.getD j 0 < cols.length - (if hasBg then 1 else 0)) := by
  obtain ⟨M, hM, _, _, hsym⟩ := colorDifferenceMatrixRT_ok cols mt mm hne hchk
  have hcond : ¬ (n < nFixed ∨
      n - nFixed > (cols.length - (if hasBg then 1 else 0)) - nFixed) := by
    push_neg
    exact ⟨hnf, hvalid⟩
  have heval : farthestPoints n cols mt hasBg nFixed mm =
      .ok (sortSuffix M.entry nFixed
        (runSweeps M.entry hasBg (cols.length - (if hasBg then 1 else 0)) n
          nFixed (initState n
            ((cols.length - (if hasBg then 1 else 0)) - nFixed))).r) := by
    rw [farthestPoints, hM]
    simp only [hcond, if_false]
  set nColors := cols.length - (if hasBg then 1 else 0) with hnc
  have hInv : SelInv nColors n nFixed
      (runSweeps M.entry hasBg nColors n nFixed
        (initState n (nColors - nFixed))) :=
    runSweeps_inv M.entry hasBg nColors n nFixed _
      (initState_inv nColors n nFixed hnf hvalid)
  have hrlen : nFixed ≤ (runSweeps M.entry hasBg nColors n nFixed
      (initState n (nColors - nFixed))).r.length := by
    rw [hInv.1]
    exact hnf
  refine ⟨_, heval, ?_, ?_, ?_⟩
  · rw [sortSuffix_length _ _ _ hrlen, hInv.1]
  · intro j hj
    rw [sortSuffix_getD_lt _ _ _ hj hrlen]
    exact hInv.2.2.1 j hj
  · intro j hj1 hj2
    have hmem := sortSuffix_suffix_mem M.entry nFixed
      (runSweeps M.entry hasBg nColors n nFixed
        (initState n (nColors - nFixed))).r hj1 (by rw [hInv.1]; exact hj2)
    exact mem_drop_bounds hInv hmem

/-- Claim C1: for every valid call (`n_fixed ≤ n` and
`n - n_fixed ≤ #candidates`, with the matrix guard passing), the selector
returns exactly `n` indices, the first `n_fixed` of which are
`0 … n_fixed - 1` of the prepended-anchor layout, and every remaining index
lies strictly inside the candidate range `[n_fixed, n_colors)` of that
layout. -/
theorem claim_C1_selector_shape (n : ℕ) (cols : List colors.XYZ)
    (mt : metrics.MetricType) (hasBg : Bool) (nFixed : ℕ) (mm : ℚ)
    (hne : cols ≠ []) (hchk : checkMatrixSize cols.length mm = true)
    (hnf : nFixed ≤ n)
    (hvalid : n - nFixed ≤ (cols.length - (if hasBg then 1 else 0)) - nFixed) :
    ∃ res, farthestPoints n cols mt hasBg nFixed mm = .ok res ∧
      res.length = n ∧
      (∀ j, j < nFixed → res.getD j 0 = j) ∧
      (∀ j, nFixed ≤ j → j < n →
        nFixed ≤ res.getD j 0 ∧
        res.getD j 0 < cols.length - (if hasBg then 1 else 0)) :=
  farthestPoints_ok_shape n cols mt hasBg nFixed mm hne hchk hnf hvalid

/-- Witness for C1: a two-candidate pool, `n = 1`, no anchors. -/
theorem claim_C1_selector_shape_witness :
    (([⟨0, 0, 0⟩, ⟨1, 0, 0⟩] : List colors.XYZ) ≠ [] ∧
      checkMatrixSize ([⟨0, 0, 0⟩, ⟨1, 0, 0⟩] : List colors.XYZ).length 1 = true ∧
      (0 : ℕ) ≤ 1 ∧
      1 - 0 ≤ (([⟨0, 0, 0⟩, ⟨1, 0, 0⟩] : List colors.XYZ).length -
        (if false then 1 else 0)) - 0) ∧
    ∃ res, farthestPoints 1 ([⟨0, 0, 0⟩, ⟨1, 0, 0⟩] : List colors.XYZ)
        metrics.MetricType.CIE76 false 0 1 = .ok res ∧
      res.length = 1 ∧
      (∀ j, j < 0 → res.getD j 0 = j) ∧
      (∀ j, 0 ≤ j → j < 1 →
        0 ≤ res.getD j 0 ∧
        res.getD j 0 < ([⟨0, 0, 0⟩, ⟨1, 0, 0⟩] : List colors.XYZ).length -
          (if false then 1 else 0)) :=
  ⟨⟨by simp, checkMatrixSize_two_one, Nat.zero_le 1, by simp⟩,
    claim_C1_selector_shape 1 [⟨0, 0, 0⟩, ⟨1, 0, 0⟩] metrics.MetricType.CIE76
      false 0 1 (by simp) checkMatrixSize_two_one (Nat.zero_le 1) (by simp)⟩

/-- Claim C6: for every valid input, the selector's local-search loop
terminates: within the stated bound on the number of sweeps, some full
sweep over slots `n_fixed … n-1` performs no swap (the state is a
`sweepOnce` fixpoint), the driving argument being that each accepted swap
strictly increases the swapped slot's minimum distance and hence strictly
advances the selection's distance multiset. -/
theorem claim_C6_sweep_fixpoint (cols : List colors.XYZ)
    (mt : metrics.MetricType) (mm : ℚ) (n nFixed : ℕ) (hasBg : Bool)
    (hne : cols ≠ []) (hchk : checkMatrixSize cols.length mm = true)
    (hnf : nFixed ≤ n)
    (hvalid : n - nFixed ≤ (cols.length - (if hasBg then 1 else 0)) - nFixed) :
    ∃ M, colorDifferenceMatrixRT cols mt mm = .ok M ∧
      ∃ k, k ≤ ((cols.length - (if hasBg then 1 else 0)) + n) ^ n ∧
        sweepOnce M.entry hasBg (cols.length - (if hasBg then 1 else 0)) n
            nFixed
            ((sweepOnce M.entry hasBg (cols.length - (if hasBg then 1 else 0))
              n nFixed)^[k]
              (initState n
                ((cols.length - (if hasBg then 1 else 0)) - nFixed))) =
          (sweepOnce M.entry hasBg (cols.length - (if hasBg then 1 else 0)) n
            nFixed)^[k]
            (initState n ((cols.length - (if hasBg then 1 else 0)) - nFixed)) := by
  obtain ⟨M, hM, _, _, hsym⟩ := colorDifferenceMatrixRT_ok cols mt mm hne hchk
  exact ⟨M, hM, sweeps_reach_fixpoint M.entry hasBg _ n nFixed hsym _
    (initState_inv _ n nFixed hnf hvalid)⟩

/-- Witness for C6 at the concrete C1 instance. -/
theorem claim_C6_sweep_fixpoint_witness :
    (([⟨0, 0, 0⟩, ⟨1, 0, 0⟩] : List colors.XYZ) ≠ [] ∧
      checkMatrixSize ([⟨0, 0, 0⟩, ⟨1, 0, 0⟩] : List colors.XYZ).length 1 = true ∧
      (0 : ℕ) ≤ 1 ∧
      1 - 0 ≤ (([⟨0, 0, 0⟩, ⟨1, 0, 0⟩] : List colors.XYZ).length -
        (if false then 1 else 0)) - 0) ∧
    ∃ M, colorDifferenceMatrixRT ([⟨0, 0, 0⟩, ⟨1, 0, 0⟩] : List colors.XYZ)
        metrics.MetricType.CIE76 1 = .ok M ∧
      ∃ k, k ≤ ((([⟨0, 0, 0⟩, ⟨1, 0, 0⟩] : List colors.XYZ).length -
          (if false then 1 else 0)) + 1) ^ 1 ∧
        sweepOnce M.entry false
            (([⟨0, 0, 0⟩, ⟨1, 0, 0⟩] : List colors.XYZ).length -
              (if false then 1 else 0)) 1 0
            ((sweepOnce M.entry false
              (([⟨0, 0, 0⟩, ⟨1, 0, 0⟩] : List colors.XYZ).length -
                (if false then 1 else 0)) 1 0)^[k]
              (initState 1
                ((([⟨0, 0, 0⟩, ⟨1, 0, 0⟩] : List colors.XYZ).length -
                  (if false then 1 else 0)) - 0))) =
          (sweepOnce M.entry false
            (([⟨0, 0, 0⟩, ⟨1, 0, 0⟩] : List colors.XYZ).length -
              (if false then 1 else 0)) 1 0)^[k]
            (initState 1
              ((([⟨0, 0, 0⟩, ⟨1, 0, 0⟩] : List colors.XYZ).length -
                (if false then 1 else 0)) - 0)) :=
  ⟨⟨by simp, checkMatrixSize_two_one, Nat.zero_le 1, by simp⟩,
    claim_C6_sweep_fixpoint [⟨0, 0, 0⟩, ⟨1, 0, 0⟩] metrics.MetricType.CIE76 1
      1 0 false (by simp) checkMatrixSize_two_one (Nat.zero_le 1) (by simp)⟩

theorem cvdFold_length (cvd : List (String × ℝ)) (acc : List colors.RGB) :
    (cvd.foldl
      (fun acc p => if p.2 > 0 then acc.map (simulateCvd p.1 p.2) else acc)
      acc).length = acc.length := by
  induction cvd generalizing acc with
  | nil => rfl
  | cons p cvd ih =>
    rw [List.foldl_cons]
    by_cases hp : p.2 > 0
    · rw [if_pos hp, ih, List.length_map]
    · rw [if_neg hp, ih]

/-- Claim C2: every `extend(anchors, n)` call that passes validation (and
the matrix memory guard) succeeds, returns exactly `n` colors whose first
`|anchors|` entries are the anchors in order, and every returned color is
an original (pre-CVD) pool color at the index the selector returned. -/
theorem claim_C2_extend_structure (pool : List colors.RGB)
    (bg : Option colors.RGB) (cvd : List (String × ℝ))
    (mt : metrics.MetricType) (mm : ℚ) (n : ℕ)
    (fixedPalette : List colors.RGB) (hne : pool ≠ [])
    (hnf : fixedPalette.length ≤ n)
    (hsize : n - fixedPalette.length ≤ pool.length)
    (hchk : checkMatrixSize
      (fixedPalette.length + pool.length + (if bg.isSome then 1 else 0)) mm =
        true) :
    ∃ palette ind,
      selectColors pool bg cvd mt mm n fixedPalette = .ok palette ∧
      farthestPoints n
        ((cvd.foldl
          (fun acc p => if p.2 > 0 then acc.map (simulateCvd p.1 p.2) else acc)
          (fixedPalette ++ pool ++ bg.toList)).map colors.xyzOfRGB)
        mt bg.isSome fixedPalette.length mm = .ok ind ∧
      palette = ind.map
        (fun i => (fixedPalette ++ pool ++ bg.toList).getD i default) ∧
      palette.length = n ∧
      ∀ j, j < fixedPalette.length →
        palette.getD j default = fixedPalette.getD j default := by
  set nFixed := fixedPalette.length with hnfdef
  set rgbColors := fixedPalette ++ pool ++ bg.toList with hrgb
  set xyz := (cvd.foldl
    (fun acc p => if p.2 > 0 then acc.map (simulateCvd p.1 p.2) else acc)
    rgbColors).map colors.xyzOfRGB with hxyz
  have hbgl : bg.toList.length = if bg.isSome then 1 else 0 := by
    cases bg <;> simp
  have hlen_rgb : rgbColors.length =
      nFixed + pool.length + (if bg.isSome then 1 else 0) := by
    rw [hrgb]
    simp only [List.length_append, hbgl]
  have hlen_xyz : xyz.length =
      nFixed + pool.length + (if bg.isSome then 1 else 0) := by
    rw [hxyz, List.length_map, cvdFold_length, hlen_rgb]
  have hxyz_ne : xyz ≠ [] := by
    rw [← List.length_pos, hlen_xyz]
    have : 0 < pool.length := List.length_pos.mpr hne
    omega
  have hchk2 : checkMatrixSize xyz.length mm = true := by
    rw [hlen_xyz]
    exact hchk
  have hvalid : n - nFixed ≤
      (xyz.length - (if bg.isSome then 1 else 0)) - nFixed := by
    rw [hlen_xyz]
    omega
  obtain ⟨ind, hind, hlen_ind, hpre_ind, _⟩ :=
    farthestPoints_ok_shape n xyz mt bg.isSome nFixed mm hxyz_ne hchk2 hnf
      hvalid
  have hnf2 : fixedPalette.length ≤ n := hnfdef ▸ hnf
  have hsize2 : n - fixedPalette.length ≤ pool.length := by
    rw [← hnfdef]
    exact hsize
  have hsel : selectColors pool bg cvd mt mm n fixedPalette =
      .ok (ind.map fun i => rgbColors.getD i default) := by
    simp only [selectColors]
    rw [if_neg (by simp [hne] : ¬ pool.isEmpty = true)]
    rw [if_neg (by omega : ¬ n < fixedPalette.length)]
    rw [if_neg (by omega : ¬ pool.length < n - fixedPalette.length)]
    rw [← hrgb, ← hxyz, ← hnfdef, hind]
  refine ⟨_, ind, hsel, hind, rfl, ?_, ?_⟩
  · rw [List.length_map, hlen_ind]
  · intro j hj
    have hjn : j < ind.length := by omega
    rw [List.getD_eq_getElem _ default (by simpa using hjn), List.getElem_map]
    have hindj : ind[j] = j := by
      rw [← List.getD_eq_getElem ind 0 hjn]
      exact hpre_ind j hj
    rw [hindj, hrgb, List.getD_append _ _ _ _ (by simp; omega),
      List.getD_append _ _ _ _ (by omega)]

/-- Witness for C2: extend a single anchor by one pool color. -/
theorem claim_C2_extend_structure_witness :
    (([⟨1, 1, 1⟩] : List colors.RGB) ≠ [] ∧
      ([⟨0, 0, 0⟩] : List colors.RGB).length ≤ 2 ∧
      2 - ([⟨0, 0, 0⟩] : List colors.RGB).length ≤
        ([⟨1, 1, 1⟩] : List colors.RGB).length ∧
      checkMatrixSize (([⟨0, 0, 0⟩] : List colors.RGB).length +
        ([⟨1, 1, 1⟩] : List colors.RGB).length +
        (if (none : Option colors.RGB).isSome then 1 else 0)) 1 = true) ∧
    ∃ palette ind,
      selectColors [⟨1, 1, 1⟩] none [] metrics.MetricType.CIE76 1 2
        ([⟨0, 0, 0⟩] : List colors.RGB) = .ok palette ∧
      farthestPoints 2
        (([⟨0, 0, 0⟩, ⟨1, 1, 1⟩] : List colors.RGB).map colors.xyzOfRGB)
        metrics.MetricType.CIE76 false 1 1 = .ok ind ∧
      palette = ind.map
        (fun i => ([⟨0, 0, 0⟩, ⟨1, 1, 1⟩] : List colors.RGB).getD i default) ∧
      palette.length = 2 ∧
      ∀ j, j < ([⟨0, 0, 0⟩] : List colors.RGB).length →
        palette.getD j default =
          ([⟨0, 0, 0⟩] : List colors.RGB).getD j default :=
  ⟨⟨by simp, by simp, by simp, checkMatrixSize_two_one⟩,
    claim_C2_extend_structure [⟨1, 1, 1⟩] none [] metrics.MetricType.CIE76 1 2
      [⟨0, 0, 0⟩] (by simp) (by simp) (by simp) checkMatrixSize_two_one⟩

end Qualpal
